import Mathlib

/-!
Verification of the TDataFrame lazy query-engine core (ROOT, `TDataFrame.cxx`).

This file gives a shallow embedding of the engine:

* the per-node, per-slot caches and accept/reject counters
  (`TDataFrameFilterBase::CreateSlots`, and the cached `CheckFilters` /
  `GetValue` evaluation described by the specification for the template
  header that is not part of the source tree -- those parts are marked
  "Modelled from the spec"),
* the event-loop driver `TDataFrameImpl::Run` with its per-entry action and
  named-filter dispatch, the readiness publication and the action-list
  clearing,
* booking (`Book` overloads, `CheckTmpBranch`, `PickBranchNames`),
* the cutflow report (`TDataFrameFilterBase::PrintReport`,
  `TDataFrameImpl::Report`),
* the slot-assignment map of the parallel driver and `GetNSlots`.

Callables are embedded as functions of the entry number that may fail
(`Except String _`), matching user callables that may throw.  Machine
integers of the source (`Long64_t` entry numbers, `ULong64_t` counters) are
embedded as `Int` / `Nat`; the `double` percentage of `PrintReport` is
embedded as `ℚ`.  Recursion over the node graph is driven by an explicit
fuel argument so that every definition is executable by kernel reduction;
fuel is a termination device only, and the fuel bounds used by the driver
are proved sufficient below.
-/

namespace TDF

/-- Per-node, per-slot runtime state: the last-evaluated entry (sentinel
`-1`, `Long64_t` in the source), the cached filter result, the cached
derived-column value, and the accept/reject tallies
(`TDataFrameFilterBase::CreateSlots`, source lines 453-464). -/
structure NodeState where
  lastChecked : Int
  lastResult : Bool
  lastValue : Int
  accepted : Nat
  rejected : Nat
deriving Repr, DecidableEq

/-- State right after the first `CreateSlots`: `fLastCheckedEntry` is
resized with sentinel `-1`, results default, counters zero. -/
def initNodeState : NodeState :=
  { lastChecked := -1, lastResult := false, lastValue := 0,
    accepted := 0, rejected := 0 }

/-- The two transformation-node kinds of the pipeline graph: a filter
(predicate callable and optional name) and a temporary branch (derived
column) with its value callable.  Callables are functions of the entry
number that may fail, like user callables that may throw. -/
inductive NodeKind where
  | filter (pred : Nat → Except String Bool) (nm : String)
  | tmpbranch (f : Nat → Except String Int)

/-- A booked transformation node: its kind, the previous filter in its
chain (`fPrevData`, `none` when the chain starts at the root; branch nodes
forward `CheckFilters` to their predecessor, so the chain is recorded as
the previous *filter*), and the indices of the temporary branches its
callable reads (the reader bindings of `BuildReaderValues`). -/
structure Node where
  kind : NodeKind
  parent : Option Nat
  deps : List Nat

/-- A booked action: the filter chain it hangs off, the temporary branches
its input readers touch, and its accumulator update (`count` is
`fun a _ => .ok (a + 1)`, a sum-reduce adds the entry's value, ...). -/
structure ActionNode where
  parent : Option Nat
  deps : List Nat
  upd : Int → Nat → Except String Int

/-- Result of one (sub)evaluation: the new per-node states, the trace of
callable evaluations `(node index, entry)` performed, and the first
failure raised by a user callable, if any. -/
structure EvalRes where
  st : Nat → NodeState
  tr : List (Nat × Nat)
  err : Option String

/-- Cache update of a filter node whose own callable was evaluated:
record the result and the entry, and tally accept/reject.
Modelled from the spec: the cached `CheckFilters` body lives in the
template header, which is not part of the source tree; per its §4.3,
"evaluate the callable; record its result; if named, increment accept or
reject". -/
def updFilter (i : Nat) (e : Nat) (b : Bool) (nm : String)
    (st : Nat → NodeState) : Nat → NodeState :=
  fun k =>
    if k = i then
      { lastChecked := (e : Int), lastResult := b, lastValue := (st i).lastValue,
        accepted := (st i).accepted + (if nm ≠ "" ∧ b then 1 else 0),
        rejected := (st i).rejected + (if nm ≠ "" ∧ b = false then 1 else 0) }
    else st k

/-- Cache update of a filter node whose ancestor chain rejected the entry:
record `false` without evaluating the callable and without tallying.
Modelled from the spec, §4.3 step 2. -/
def updFail (i : Nat) (e : Nat) (st : Nat → NodeState) : Nat → NodeState :=
  fun k =>
    if k = i then
      { lastChecked := (e : Int), lastResult := false,
        lastValue := (st i).lastValue,
        accepted := (st i).accepted, rejected := (st i).rejected }
    else st k

/-- Cache update of a temporary-branch node: record value and entry.
Modelled from the spec, §4.2. -/
def updBranch (i : Nat) (e : Nat) (v : Int) (st : Nat → NodeState) :
    Nat → NodeState :=
  fun k =>
    if k = i then
      { lastChecked := (e : Int), lastResult := (st i).lastResult,
        lastValue := v, accepted := (st i).accepted,
        rejected := (st i).rejected }
    else st k

/-- A pending sub-evaluation: either one node's cached evaluation
(`CheckFilters` for a filter, `GetValue` for a branch), or the evaluation
of a list of temporary-branch inputs read by a callable. -/
inductive ETask where
  | node (i : Nat)
  | deps (ds : List Nat)

/-- The cached, short-circuiting graph walk, for one slot and one entry.
Modelled from the spec: `CheckFilters`/`GetValue` live in the template
header, not in the source tree.  Per §4.2/§4.3: a node whose slot cache
records the current entry returns the cached result; a filter first asks
its ancestor chain and on rejection records `false` without evaluating its
callable; otherwise the callable's inputs are resolved (evaluating
temporary branches), the callable runs, and result and entry are cached.
A failure thrown by a callable propagates without caching.  The `fuel`
argument only bounds recursion depth; `evalGo_spec` below shows the driver
always supplies enough. -/
def evalGo (nodes : List Node) (e : Nat) :
    Nat → ETask → (Nat → NodeState) → EvalRes
  | 0, _, st => ⟨st, [], none⟩
  | fuel + 1, ETask.node i, st =>
    match nodes[i]? with
    | none => ⟨st, [], none⟩
    | some nd =>
      if (st i).lastChecked = (e : Int) then ⟨st, [], none⟩
      else
        match nd.kind with
        | NodeKind.filter pred nm =>
          let pr : EvalRes × Bool :=
            match nd.parent with
            | none => (⟨st, [], none⟩, true)
            | some j =>
              let r := evalGo nodes e fuel (ETask.node j) st
              (r, (r.st j).lastResult)
          match pr.1.err with
          | some m => ⟨pr.1.st, pr.1.tr, some m⟩
          | none =>
            if pr.2 then
              let r2 := evalGo nodes e fuel (ETask.deps nd.deps) pr.1.st
              match r2.err with
              | some m => ⟨r2.st, pr.1.tr ++ r2.tr, some m⟩
              | none =>
                match pred e with
                | Except.error m => ⟨r2.st, pr.1.tr ++ r2.tr, some m⟩
                | Except.ok b =>
                  ⟨updFilter i e b nm r2.st, pr.1.tr ++ r2.tr ++ [(i, e)], none⟩
            else ⟨updFail i e pr.1.st, pr.1.tr, none⟩
        | NodeKind.tmpbranch f =>
          let r2 := evalGo nodes e fuel (ETask.deps nd.deps) st
          match r2.err with
          | some _ => r2
          | none =>
            match f e with
            | Except.error m => ⟨r2.st, r2.tr, some m⟩
            | Except.ok v => ⟨updBranch i e v r2.st, r2.tr ++ [(i, e)], none⟩
  | _ + 1, ETask.deps [], st => ⟨st, [], none⟩
  | fuel + 1, ETask.deps (j :: rest), st =>
    let r1 := evalGo nodes e fuel (ETask.node j) st
    match r1.err with
    | some _ => r1
    | none =>
      let r2 := evalGo nodes e fuel (ETask.deps rest) r1.st
      ⟨r2.st, r1.tr ++ r2.tr, r2.err⟩

/-- The pure (cache-free) value of a filter chain at an entry: conjunction
of the ancestor chain and the node's own predicate, short-circuiting on
rejection and on the first callable failure.  This is the reference
semantics the cached walk is compared with. -/
def filterResGo (nodes : List Node) (e : Nat) :
    Nat → Nat → Except String Bool
  | 0, _ => Except.ok true
  | fuel + 1, i =>
    match nodes[i]? with
    | some nd =>
      match nd.kind with
      | NodeKind.filter pred _ =>
        match nd.parent with
        | none => pred e
        | some j =>
          match filterResGo nodes e fuel j with
          | Except.error m => Except.error m
          | Except.ok b => if b then pred e else Except.ok false
      | NodeKind.tmpbranch _ => Except.ok true
    | none => Except.ok true

/-- Pure result of the filter at index `i` on entry `e`. -/
def filterRes (nodes : List Node) (i : Nat) (e : Nat) : Except String Bool :=
  filterResGo nodes e (i + 1) i

/-- Pure result of the ancestor chain of node `i` on entry `e`
(`Except.ok true` exactly when every ancestor filter of `i` accepts). -/
def parentRes (nodes : List Node) (i : Nat) (e : Nat) : Except String Bool :=
  match nodes[i]? with
  | some nd =>
    match nd.parent with
    | none => Except.ok true
    | some j => filterRes nodes j e
  | none => Except.ok true

/-- `j` indexes a filter node of `nodes`. -/
def isFilterIdx (nodes : List Node) (j : Nat) : Bool :=
  match nodes[j]? with
  | some nd =>
    match nd.kind with
    | NodeKind.filter _ _ => true
    | NodeKind.tmpbranch _ => false
  | none => false

/-- `j` indexes a temporary-branch node of `nodes`. -/
def isBranchIdx (nodes : List Node) (j : Nat) : Bool :=
  match nodes[j]? with
  | some nd =>
    match nd.kind with
    | NodeKind.filter _ _ => false
    | NodeKind.tmpbranch _ => true
  | none => false

/-- `j` indexes a *named* filter node of `nodes`. -/
def isNamedIdx (nodes : List Node) (j : Nat) : Bool :=
  match nodes[j]? with
  | some nd =>
    match nd.kind with
    | NodeKind.filter _ nm => !(nm == "")
    | NodeKind.tmpbranch _ => false
  | none => false

/-- Accept plus reject tally of a node state (the "observed" count of the
cutflow report). -/
def accRej (s : NodeState) : Nat := s.accepted + s.rejected

/-- Largest input-list length over all nodes and actions; enters the fuel
bound for the graph walk. -/
def maxDepsLen (nodes : List Node) (actions : List ActionNode) : Nat :=
  ((nodes.map fun nd => nd.deps.length) ++
    (actions.map fun a => a.deps.length)).foldr max 0

/-- Fuel supplied by the driver: enough for any node index and any input
list of the frame (proved below). -/
def passFuel (nodes : List Node) (actions : List ActionNode) : Nat :=
  (nodes.length + 1) * (maxDepsLen nodes actions + 2) +
    maxDepsLen nodes actions + 2

/-- State of one in-progress event loop for one slot: node caches,
per-action accumulators (indexed by booking position), evaluation trace,
and the first failure raised, if any. -/
structure PassSt where
  st : Nat → NodeState
  accs : Nat → Int
  tr : List (Nat × Nat)
  err : Option String

/-- One action dispatch (`TDataFrameAction::Run`, modelled from the spec
§4.4): evaluate the ancestor chain; if it accepts, resolve the inputs
(evaluating temporary branches) and update the slot accumulator. -/
def runActions (nodes : List Node) (fuel : Nat) (e : Nat) :
    List (Nat × ActionNode) → (Nat → NodeState) → (Nat → Int) →
      (Nat → NodeState) × (Nat → Int) × List (Nat × Nat) × Option String
  | [], st, accs => (st, accs, [], none)
  | (idx, a) :: rest, st, accs =>
    let pr : EvalRes × Bool :=
      match a.parent with
      | none => (⟨st, [], none⟩, true)
      | some j =>
        let r := evalGo nodes e fuel (ETask.node j) st
        (r, (r.st j).lastResult)
    match pr.1.err with
    | some m => (pr.1.st, accs, pr.1.tr, some m)
    | none =>
      if pr.2 then
        let r2 := evalGo nodes e fuel (ETask.deps a.deps) pr.1.st
        match r2.err with
        | some m => (r2.st, accs, pr.1.tr ++ r2.tr, some m)
        | none =>
          match a.upd (accs idx) e with
          | Except.error m => (r2.st, accs, pr.1.tr ++ r2.tr, some m)
          | Except.ok v =>
            let q := runActions nodes fuel e rest r2.st
              (fun k => if k = idx then v else accs k)
            (q.1, q.2.1, pr.1.tr ++ r2.tr ++ q.2.2.1, q.2.2.2)
      else
        let q := runActions nodes fuel e rest pr.1.st accs
        (q.1, q.2.1, pr.1.tr ++ q.2.2.1, q.2.2.2)

/-- The named-filter sweep of the driver loop: `CheckFilters` on every
booked named filter, in booking order (source lines 520 and 539). -/
def runNamed (nodes : List Node) (fuel : Nat) (e : Nat) :
    List Nat → (Nat → NodeState) →
      (Nat → NodeState) × List (Nat × Nat) × Option String
  | [], st => (st, [], none)
  | i :: rest, st =>
    let r := evalGo nodes e fuel (ETask.node i) st
    match r.err with
    | some m => (r.st, r.tr, some m)
    | none =>
      let q := runNamed nodes fuel e rest r.st
      (q.1, r.tr ++ q.2.1, q.2.2)

/-- One iteration of the driver's event loop (source lines 517-521 /
536-540): run every booked action on the current entry, then check every
booked named filter. -/
def processEntry (nodes : List Node) (actions : List ActionNode)
    (named : List Nat) (e : Nat) (p : PassSt) : PassSt :=
  let fuel := passFuel nodes actions
  let ra := runActions nodes fuel e actions.enum p.st p.accs
  match ra.2.2.2 with
  | some m => ⟨ra.1, ra.2.1, p.tr ++ ra.2.2.1, some m⟩
  | none =>
    let rn := runNamed nodes fuel e named ra.1
    ⟨rn.1, ra.2.1, p.tr ++ ra.2.2.1 ++ rn.2.1, rn.2.2⟩

/-- The driver's event loop over a list of entries; a raised failure stops
the loop and propagates (source lines 517-521 / 536-540). -/
def runLoop (nodes : List Node) (actions : List ActionNode)
    (named : List Nat) : List Nat → PassSt → PassSt
  | [], p => p
  | e :: rest, p =>
    match p.err with
    | some _ => p
    | none => runLoop nodes actions named rest (processEntry nodes actions named e p)

/-- Fresh per-slot pass state, as produced by the first `CreateSlots`. -/
def freshPass : PassSt :=
  ⟨fun _ => initNodeState, fun _ => 0, [], none⟩

/-- One slot's share of a pass, starting from freshly created slot state:
used to state per-slot properties of both the single-threaded loop
(slot 0 processes every entry) and the parallel driver (each slot
processes its contiguous entry range). -/
def runSlot (nodes : List Node) (actions : List ActionNode)
    (named : List Nat) (rows : List Nat) : PassSt :=
  runLoop nodes actions named rows freshPass

/-! ### Worker count and slot assignment (source lines 395-401, 499-512) -/

/-- `ROOT::Internal::GetNSlots` (source lines 395-401): one slot, or the
implicit-MT pool size when implicit parallelism is enabled. -/
def GetNSlots (imtEnabled : Bool) (poolSize : Nat) : Nat :=
  if imtEnabled then poolSize else 1

/-- The parallel driver's shared slot bookkeeping (source lines 495-497):
the thread-id → slot map and the next slot index to hand out.  Thread ids
are embedded as naturals. -/
structure SlotMap where
  map : List (Nat × Nat)
  gsi : Nat

/-- One worker entry into the pass body (source lines 500-512), as run
under the spin mutex: a thread already in the map reuses its slot,
otherwise it receives `globalSlotIndex`, which is then incremented. -/
def acquireSlot (tid : Nat) (s : SlotMap) : Nat × SlotMap :=
  match s.map.lookup tid with
  | some slot => (slot, s)
  | none => (s.gsi, ⟨s.map ++ [(tid, s.gsi)], s.gsi + 1⟩)

/-- The sequence of slot acquisitions produced by worker entries arriving
in the given order (the mutex serialises the critical sections, so any
interleaving is some such order). -/
def assignSlots : List Nat → SlotMap → List (Nat × Nat) × SlotMap
  | [], s => ([], s)
  | t :: ts, s =>
    let p := acquireSlot t s
    let q := assignSlots ts p.2
    ((t, p.1) :: q.1, q.2)

/-! ### Booking-time checks (source lines 403-427) -/

/-- `ROOT::Internal::CheckTmpBranch` (source lines 403-410): booking a
temporary branch fails when a branch of that name is already present in
the `TTree` (the persistent source columns). -/
def CheckTmpBranch (branchName : String) (treeBranches : List String) :
    Except String Unit :=
  if treeBranches.contains branchName then
    Except.error ("branch \"" ++ branchName ++ "\" already present in TTree")
  else Except.ok ()

/-- The arity-mismatch message of `PickBranchNames` (source lines 420-421;
the reported branch count is `bl.size() ? bl.size() : defBl.size()`). -/
def mismatchMsg (nArgs : Nat) (bl defBl : List String) : String :=
  "mismatch between number of filter arguments (" ++ toString nArgs ++
    ") and number of branches (" ++
    toString (if bl.length ≠ 0 then bl.length else defBl.length) ++ ")"

/-- `ROOT::Internal::PickBranchNames` (source lines 413-427): use the
node's own branch list when its size matches the callable's arity; fall
back to the default list only when the own list is empty and the default
list's size matches the arity exactly; otherwise fail. -/
def PickBranchNames (nArgs : Nat) (bl : List String) (defBl : List String) :
    Except String (List String) :=
  if nArgs ≠ bl.length then
    if bl.length = 0 ∧ nArgs = defBl.length then Except.ok defBl
    else Except.error (mismatchMsg nArgs bl defBl)
  else Except.ok bl

/-! ### The cutflow report (source lines 451, 466-475, 641-644) -/

/-- `TDataFrameFilterBase::HasName` (source line 451): `!fName.empty()`. -/
def HasName (nm : String) : Bool := !(nm == "")

/-- One line printed by `TDataFrameFilterBase::PrintReport`: filter name,
accepted count, observed count, and the percentage (a `double` in the
source, embedded as `ℚ`). -/
structure ReportLine where
  nm : String
  pass : Nat
  all : Nat
  perc : ℚ
deriving Repr, DecidableEq

/-- The name of the filter at index `i` (empty for non-filters). -/
def filterName (nodes : List Node) (i : Nat) : String :=
  match nodes[i]? with
  | some nd =>
    match nd.kind with
    | NodeKind.filter _ s => s
    | NodeKind.tmpbranch _ => ""
  | none => ""

/-- Accepted count of a filter summed over the slots. -/
def slotAccepted (sts : List (Nat → NodeState)) (i : Nat) : Nat :=
  (sts.map fun st => (st i).accepted).sum

/-- Rejected count of a filter summed over the slots. -/
def slotRejected (sts : List (Nat → NodeState)) (i : Nat) : Nat :=
  (sts.map fun st => (st i).rejected).sum

/-- `TDataFrameFilterBase::PrintReport` (source lines 466-475): sum the
per-slot accept tallies, add the per-slot reject tallies for the observed
count, and compute `perc = accepted; if (all > 0) perc /= all; perc *= 100`.
`sts` is the list of per-slot state vectors. -/
def printReport (nodes : List Node) (sts : List (Nat → NodeState))
    (i : Nat) : ReportLine :=
  let accepted := slotAccepted sts i
  let all := accepted + slotRejected sts i
  let perc : ℚ :=
    (if all > 0 then (accepted : ℚ) / (all : ℚ) else (accepted : ℚ)) * 100
  ⟨filterName nodes i, accepted, all, perc⟩

/-! ### The root (`TDataFrameImpl`) -/

/-- The root node of a pipeline graph, owning the booked collections and
the run-once state.  `nodes` holds the booked filters and temporary
branches in booking order (the objects owned through `fBookedFilters` /
`fBookedBranches`); `bookedBranches` is the `fBookedBranches` name → node
map; `namedFilters` indexes the named filters in booking order
(`fBookedNamedFilters`); `actions` is `fBookedActions`.  Result handles
are identified with the booking position of their action: `flags` is the
heap of shared readiness booleans and `proxies` the root's
`fResProxyReadiness` list of the flags to publish.  `nodeSt` and `accs`
are the slot-0 runtime states (single-threaded path). -/
structure TDataFrameImpl where
  treeBranches : List String
  nRows : Nat
  nodes : List Node
  bookedBranches : List (String × Nat)
  namedFilters : List Nat
  actions : List ActionNode
  nodeSt : Nat → NodeState
  accs : Nat → Int
  flags : Nat → Bool
  proxies : List Nat
  hasRunAtLeastOnce : Bool

/-- A freshly constructed root over a source with the given persistent
columns and row count: nothing booked, nothing run. -/
def mkDataFrame (treeBranches : List String) (nRows : Nat) : TDataFrameImpl :=
  { treeBranches := treeBranches, nRows := nRows, nodes := [],
    bookedBranches := [], namedFilters := [], actions := [],
    nodeSt := fun _ => initNodeState, accs := fun _ => 0,
    flags := fun _ => false, proxies := [], hasRunAtLeastOnce := false }

/-- `TDataFrameImpl::CreateSlots` as seen by an existing slot (source
lines 453-464, 564-569): the vectors are resized (a no-op for an already
sized slot, filling `-1` for a fresh one -- a fresh slot is
`initNodeState`) and the accept/reject tallies are refilled with zero. -/
def createSlots (st : Nat → NodeState) : Nat → NodeState :=
  fun k => { st k with accepted := 0, rejected := 0 }

/-- Set the readiness flags listed in `proxies` to `true` (source lines
549-551: `for (auto readiness : fResProxyReadiness) *readiness.get() = true;`). -/
def setFlags (flags : Nat → Bool) : List Nat → (Nat → Bool)
  | [] => flags
  | j :: rest => setFlags (fun k => if k = j then true else flags k) rest

/-- `TDataFrameImpl::Run`, single-threaded path (source lines 488-553):
create the slot state, loop over the entries running actions and checking
named filters, and on completion mark the run done, forget the booked
actions, publish every readiness flag and forget them too.  A failure
raised inside the loop propagates before any of those completion steps:
the partial node states and accumulators remain, everything else is
untouched.  `finishRun` is the post-loop tail of `Run` (source lines
545-552). -/
def finishRun (df : TDataFrameImpl) (p : PassSt) :
    TDataFrameImpl × Option String :=
  match p.err with
  | some m => ({ df with nodeSt := p.st, accs := p.accs }, some m)
  | none =>
    ({ df with
        nodeSt := p.st
        accs := p.accs
        hasRunAtLeastOnce := true
        actions := []
        flags := setFlags df.flags df.proxies
        proxies := [] }, none)

/-- `TDataFrameImpl::Run`: the event loop followed by the completion
steps of `finishRun`. -/
def Run (df : TDataFrameImpl) : TDataFrameImpl × Option String :=
  finishRun df (runLoop df.nodes df.actions df.namedFilters
    (List.range df.nRows) ⟨createSlots df.nodeSt, df.accs, [], none⟩)

/-- `TDataFrameImpl::Report` (source lines 641-644): `PrintReport` on every
booked named filter, in booking order. -/
def Report (df : TDataFrameImpl) : List ReportLine :=
  df.namedFilters.map (printReport df.nodes [df.nodeSt])

/-! ### Booking (source lines 611-627) -/

/-- `TDataFrameImpl::Book(FilterBasePtr_t)` (source lines 616-622): append
to the booked filters; a filter with a name is additionally appended to the
named-filter list. -/
def bookFilter (df : TDataFrameImpl) (pred : Nat → Except String Bool)
    (nm : String) (parent : Option Nat) (deps : List Nat) : TDataFrameImpl :=
  { df with
    nodes := df.nodes ++ [⟨NodeKind.filter pred nm, parent, deps⟩],
    namedFilters := df.namedFilters ++
      (if HasName nm then [df.nodes.length] else []) }

/-- Replace-or-insert into the `fBookedBranches` map (`std::map::operator[]`
assignment). -/
def insertOrReplace (m : List (String × Nat)) (nm : String) (v : Nat) :
    List (String × Nat) :=
  match m with
  | [] => [(nm, v)]
  | (k, w) :: rest =>
    if k = nm then (k, v) :: rest else (k, w) :: insertOrReplace rest nm v

/-- `TDataFrameImpl::Book(TmpBranchBasePtr_t)` (source lines 624-627):
`fBookedBranches[branchPtr->GetName()] = branchPtr` -- an existing entry of
the same name is silently replaced. -/
def bookBranch (df : TDataFrameImpl) (nm : String)
    (f : Nat → Except String Int) (deps : List Nat) : TDataFrameImpl :=
  { df with
    nodes := df.nodes ++ [⟨NodeKind.tmpbranch f, none, deps⟩],
    bookedBranches := insertOrReplace df.bookedBranches nm df.nodes.length }

/-- `TDataFrameImpl::Book(ActionBasePtr_t)` (source lines 611-614) together
with the handle issuance of the booking interface.  Modelled from the spec:
the interface code that creates the result handle is in the template
header, not in the source tree; per §4.1, booking an action "issues a
result handle that becomes ready only after the next pass", so the new
action's readiness flag is registered in `fResProxyReadiness`. -/
def bookAction (df : TDataFrameImpl) (a : ActionNode) : TDataFrameImpl :=
  { df with
    actions := df.actions ++ [a],
    proxies := df.proxies ++ [df.actions.length] }

/-- `AddCol` booking of a derived column.  Modelled from the spec: the
interface code is in the template header, not in the source tree; per
§4.1 it performs the duplicate-name check and then books the node, and the
check is the source's `CheckTmpBranch` against the tree's branches. -/
def AddCol (df : TDataFrameImpl) (nm : String)
    (f : Nat → Except String Int) (deps : List Nat) :
    Except String TDataFrameImpl :=
  match CheckTmpBranch nm df.treeBranches with
  | Except.error m => Except.error m
  | Except.ok _ => Except.ok (bookBranch df nm f deps)

/-! ### Result observation and the report trigger -/

/-- Observation of a result handle (`TActionResultPtr`).  Modelled from the
spec: the handle class is in the template header, not in the source tree;
per §4.6, "if not ready, trigger the root's run; then return the finalised
value.  Subsequent observations return the cached value without
re-running."  The second component counts the passes this observation
drove. -/
def observe (df : TDataFrameImpl) (h : Nat) :
    TDataFrameImpl × Nat × Option String × Option Int :=
  if df.flags h then (df, 0, none, some (df.accs h))
  else
    match (Run df).2 with
    | some m => ((Run df).1, 1, some m, none)
    | none => ((Run df).1, 1, none, some ((Run df).1.accs h))

/-- The user-facing `Report` call.  Modelled from the spec: the interface
wrapper is in the template header, not in the source tree; per §4.1,
"if no pass has yet run, triggers one", then the root's `Report` prints
the lines.  The second component counts the passes this call drove. -/
def report (df : TDataFrameImpl) :
    TDataFrameImpl × Nat × Option String × List ReportLine :=
  if df.hasRunAtLeastOnce then (df, 0, none, Report df)
  else
    match (Run df).2 with
    | some m => ((Run df).1, 1, some m, [])
    | none => ((Run df).1, 1, none, Report (Run df).1)

/-! ### Well-formed pipeline graphs -/

/-- Booking invariant of one node (§3 of the specification: the graph is
acyclic by construction): the chain predecessor is an earlier filter node
and every input is an earlier temporary-branch node. -/
def nodeOk (nodes : List Node) (i : Nat) (nd : Node) : Bool :=
  (match nd.parent with
   | none => true
   | some j => decide (j < i) && isFilterIdx nodes j) &&
  nd.deps.all fun j => decide (j < i) && isBranchIdx nodes j

/-- Booking invariant of one action: its chain predecessor is a filter
node and every input is a temporary-branch node. -/
def actionOk (nodes : List Node) (a : ActionNode) : Bool :=
  (match a.parent with
   | none => true
   | some j => isFilterIdx nodes j) &&
  a.deps.all fun j => isBranchIdx nodes j

/-- The booking invariants of a whole frame: every node and action is
well-formed and the named-filter list indexes named filters. -/
def WFFrame (nodes : List Node) (actions : List ActionNode)
    (named : List Nat) : Bool :=
  ((List.range nodes.length).all fun i =>
    match nodes[i]? with
    | some nd => nodeOk nodes i nd
    | none => true) &&
  (actions.all fun a => actionOk nodes a) &&
  named.all fun i => isNamedIdx nodes i

/-! ### The cache invariants of one entry's processing -/

/-- Cache consistency at entry `e`: every filter whose slot cache records
`e` has recorded the pure value of its chain at `e`. -/
def ConsSt (nodes : List Node) (e : Nat) (st : Nat → NodeState) : Prop :=
  ∀ k, isFilterIdx nodes k = true → (st k).lastChecked = (e : Int) →
    filterRes nodes k e = Except.ok ((st k).lastResult)

/-- How one (sub)evaluation during the processing of entry `e` relates its
input states `st₀` to its output states `st` and its trace `tr` of
callable evaluations.  These are the facts that compose along the driver's
sequence of calls and yield the at-most-once and counter properties. -/
structure Step (nodes : List Node) (e : Nat) (st₀ st : Nat → NodeState)
    (tr : List (Nat × Nat)) : Prop where
  untouched : ∀ k, (st₀ k).lastChecked = (e : Int) → st k = st₀ k
  evolve : ∀ k, (st k).lastChecked = (st₀ k).lastChecked ∨
    (st k).lastChecked = (e : Int)
  trace : ∀ p ∈ tr, p.2 = e ∧ (st₀ p.1).lastChecked ≠ (e : Int) ∧
    (st p.1).lastChecked = (e : Int)
  once : ∀ k, tr.count (k, e) ≤ 1
  tally : ∀ k, accRej (st k) = accRej (st₀ k) +
    (if (k, e) ∈ tr ∧ isNamedIdx nodes k = true then 1 else 0)
  cons : ConsSt nodes e st₀ → ConsSt nodes e st
  became : ConsSt nodes e st₀ → ∀ k, (st k).lastChecked = (e : Int) →
    (st₀ k).lastChecked ≠ (e : Int) →
    ((k, e) ∈ tr ∨ parentRes nodes k e = Except.ok false)
  chainAcc : ConsSt nodes e st₀ → ∀ p ∈ tr, isFilterIdx nodes p.1 = true →
    parentRes nodes p.1 e = Except.ok true

/-- Indices a (sub)evaluation may touch: at most the evaluated node for a
node task, at most the listed inputs for an input-list task. -/
def taskBound : ETask → Nat → Prop
  | ETask.node i, k => k ≤ i
  | ETask.deps ds, k => ∃ j ∈ ds, k ≤ j

/-- Fuel weight of one node evaluation. -/
def wNode (M i : Nat) : Nat := (i + 1) * (M + 2)

/-- Fuel weight of one input-list evaluation. -/
def wDeps (M : Nat) (ds : List Nat) : Nat :=
  (ds.map (wNode M)).foldr max 0 + ds.length + 1

/-- Fuel weight of a task: any fuel above it makes the guarded recursion
of `evalGo` behave like the unguarded source recursion. -/
def wTask (M : Nat) : ETask → Nat
  | ETask.node i => wNode M i
  | ETask.deps ds => wDeps M ds

/-- The node-graph part of the booking invariants: every chain
predecessor is an earlier filter, every input an earlier temporary
branch. -/
def WFNodes (nodes : List Node) : Prop :=
  ∀ i nd, nodes[i]? = some nd →
    (∀ j, nd.parent = some j → j < i ∧ isFilterIdx nodes j = true) ∧
    (∀ j ∈ nd.deps, j < i ∧ isBranchIdx nodes j = true)

/-- What one `evalGo` call guarantees: its input/output states and trace
form a `Step`, it touches and traces only nodes within its task's bound,
and a completed node evaluation leaves the node's cache at the current
entry. -/
def EvalOK (nodes : List Node) (e : Nat) (fuel : Nat) (task : ETask)
    (st : Nat → NodeState) : Prop :=
  Step nodes e st (evalGo nodes e fuel task st).st
    (evalGo nodes e fuel task st).tr ∧
  (∀ p ∈ (evalGo nodes e fuel task st).tr, taskBound task p.1) ∧
  (∀ k, (evalGo nodes e fuel task st).st k ≠ st k → taskBound task k) ∧
  (∀ i nd, task = ETask.node i → nodes[i]? = some nd →
    (evalGo nodes e fuel task st).err = none →
    ((evalGo nodes e fuel task st).st i).lastChecked = (e : Int))

/-- The pure acceptance of node `i`'s ancestor chain at entry `r`, as a
boolean: `true` exactly when every ancestor filter of `i` accepts `r`
(and none of their callables fails). -/
def chainPass (nodes : List Node) (i : Nat) (r : Nat) : Bool :=
  match parentRes nodes i r with
  | Except.ok true => true
  | _ => false

/-! ### Concrete frames used in the end-to-end scenarios -/

/-- Column `A = [1, 2, 3]` of scenario S3, as a function of the entry. -/
def aColS3 : Nat → Int := fun r => (r : Int) + 1

/-- Scenario S3: source with `A = [1,2,3]`, named filter `gt1 : A > 1`,
named filter `lt3 : A < 3` chained after it, and a count action
downstream of both. -/
def dfS3 : TDataFrameImpl :=
  bookAction
    (bookFilter
      (bookFilter (mkDataFrame ["A"] 3)
        (fun r => Except.ok (aColS3 r > 1)) "gt1" none [])
      (fun r => Except.ok (aColS3 r < 3)) "lt3" (some 0) [])
    ⟨some 1, [], fun a _ => Except.ok (a + 1)⟩

/-- A two-row source with a single count action booked. -/
def dfCount : TDataFrameImpl :=
  bookAction (mkDataFrame ["A"] 2) ⟨none, [], fun a _ => Except.ok (a + 1)⟩

/-- Scenario S5: a derived column whose callable throws on entry 3,
consumed by an action, over a five-row source. -/
def dfThrow : TDataFrameImpl :=
  bookAction
    (bookBranch (mkDataFrame ["A"] 5) "D"
      (fun r =>
        if r = 3 then Except.error "user callable failure on entry 3"
        else Except.ok 0) [])
    ⟨none, [0], fun a _ => Except.ok (a + 1)⟩

/-- A root with a derived column `D` already booked (used to exhibit the
behaviour of a second booking of the same derived name). -/
def dfDupBranch : TDataFrameImpl :=
  bookBranch (mkDataFrame ["A"] 3) "D" (fun _ => Except.ok 0) []

/-- A diamond graph: one temporary branch read by two separate count
actions (two downstream consumers of the same node). -/
def diamondNodes : List Node :=
  [⟨NodeKind.tmpbranch fun r => Except.ok (r : Int), none, []⟩]

/-- The two actions of the diamond graph, both reading branch `0`. -/
def diamondActions : List ActionNode :=
  [⟨none, [0], fun a _ => Except.ok (a + 1)⟩,
   ⟨none, [0], fun a _ => Except.ok (a + 1)⟩]

/-- Invariant of the parallel driver's slot bookkeeping: every assigned
slot is below the next index to hand out, no thread appears twice, no two
threads share a slot, and the next index equals the number of threads
seen. -/
def SlotInv (s : SlotMap) : Prop :=
  (∀ p ∈ s.map, p.2 < s.gsi) ∧
  (s.map.map Prod.fst).Nodup ∧
  (∀ p ∈ s.map, ∀ q ∈ s.map, p.2 = q.2 → p.1 = q.1) ∧
  s.gsi = s.map.length

/-! ## Auxiliary lemmas -/

theorem lookup_mem {l : List (Nat × Nat)} {t v : Nat}
    (h : l.lookup t = some v) : (t, v) ∈ l := by
  induction l with
  | nil => simp [List.lookup] at h
  | cons kv rest ih =>
    obtain ⟨k, w⟩ := kv
    by_cases hk : t = k
    · subst hk
      simp [List.lookup] at h
      simp [h]
    · have hbeq : (t == k) = false := by simpa using hk
      simp [List.lookup, hbeq] at h
      exact List.mem_cons_of_mem _ (ih h)

theorem lookup_none_not_mem {l : List (Nat × Nat)} {t : Nat}
    (h : l.lookup t = none) : t ∉ l.map Prod.fst := by
  induction l with
  | nil => simp
  | cons kv rest ih =>
    obtain ⟨k, w⟩ := kv
    by_cases hk : t = k
    · subst hk
      simp [List.lookup] at h
    · have hbeq : (t == k) = false := by simpa using hk
      simp only [List.lookup, hbeq] at h
      simpa [hk] using ih h

theorem lookup_append_some {l₁ l₂ : List (Nat × Nat)} {t v : Nat}
    (h : l₁.lookup t = some v) : (l₁ ++ l₂).lookup t = some v := by
  induction l₁ with
  | nil => simp [List.lookup] at h
  | cons kv rest ih =>
    obtain ⟨k, w⟩ := kv
    by_cases hk : t = k
    · subst hk
      simp [List.lookup] at h ⊢
      exact h
    · have hbeq : (t == k) = false := by simpa using hk
      simp [List.lookup, hbeq] at h ⊢
      exact ih h

theorem lookup_append_none {l₁ l₂ : List (Nat × Nat)} {t : Nat}
    (h : l₁.lookup t = none) : (l₁ ++ l₂).lookup t = l₂.lookup t := by
  induction l₁ with
  | nil => simp
  | cons kv rest ih =>
    obtain ⟨k, w⟩ := kv
    by_cases hk : t = k
    · subst hk
      simp [List.lookup] at h
    · have hbeq : (t == k) = false := by simpa using hk
      simp only [List.lookup, hbeq] at h
      simp only [List.cons_append, List.lookup, hbeq]
      exact ih h

/-- `acquireSlot` preserves the slot invariant, answers below the new
`gsi`, records its answer in the map, preserves earlier lookups, and adds
at most the entering thread to the map's keys. -/
theorem acquireSlot_spec (tid : Nat) (s : SlotMap) (hinv : SlotInv s) :
    SlotInv (acquireSlot tid s).2 ∧
    (acquireSlot tid s).2.map.lookup tid = some (acquireSlot tid s).1 ∧
    (∀ t v, s.map.lookup t = some v →
      (acquireSlot tid s).2.map.lookup t = some v) ∧
    (∀ k, k ∈ (acquireSlot tid s).2.map.map Prod.fst →
      k ∈ s.map.map Prod.fst ∨ k = tid) := by
  obtain ⟨hlt, hnd, hinj, hlen⟩ := hinv
  unfold acquireSlot
  cases hl : s.map.lookup tid with
  | some slot =>
    refine ⟨⟨hlt, hnd, hinj, hlen⟩, by simpa using hl, fun t v hv => hv,
      fun k hk => Or.inl hk⟩
  | none =>
    have htid : tid ∉ s.map.map Prod.fst := lookup_none_not_mem hl
    refine ⟨⟨?_, ?_, ?_, ?_⟩, ?_, ?_, ?_⟩
    · intro p hp
      rcases List.mem_append.mp hp with hp | hp
      · exact Nat.lt_succ_of_lt (hlt p hp)
      · simp at hp
        simp [hp]
    · rw [List.map_append]
      refine List.Nodup.append hnd (by simp) ?_
      intro a ha hb
      simp at hb
      exact htid (hb ▸ ha)
    · intro p hp q hq hpq
      rcases List.mem_append.mp hp with hp | hp <;>
        rcases List.mem_append.mp hq with hq | hq
      · exact hinj p hp q hq hpq
      · simp at hq
        rw [hq] at hpq
        exact absurd (hpq ▸ hlt p hp) (lt_irrefl _)
      · simp at hp
        rw [hp] at hpq
        exact absurd (hpq ▸ hlt q hq) (lt_irrefl _)
      · simp at hp hq
        rw [hp, hq]
    · simp [hlen]
    · rw [lookup_append_none hl]
      simp [List.lookup]
    · intro t v hv
      exact lookup_append_some hv
    · intro k hk
      simp at hk
      rcases hk with hk | hk
      · exact Or.inl (by simpa using hk)
      · exact Or.inr hk

/-- `assignSlots` preserves the slot invariant, records every produced
assignment in the final map, and only adds arriving threads as keys. -/
theorem assignSlots_spec (tids : List Nat) (s : SlotMap) (hinv : SlotInv s) :
    SlotInv (assignSlots tids s).2 ∧
    (∀ t v, s.map.lookup t = some v →
      (assignSlots tids s).2.map.lookup t = some v) ∧
    (∀ p ∈ (assignSlots tids s).1,
      (assignSlots tids s).2.map.lookup p.1 = some p.2) ∧
    (∀ k, k ∈ (assignSlots tids s).2.map.map Prod.fst →
      k ∈ s.map.map Prod.fst ∨ k ∈ tids) := by
  induction tids generalizing s with
  | nil => exact ⟨hinv, fun t v hv => hv, by simp [assignSlots], fun k hk => Or.inl hk⟩
  | cons t ts ih =>
    obtain ⟨hinv', hself, hpres, hkeys⟩ := acquireSlot_spec t s hinv
    obtain ⟨ihinv, ihpres, ihasg, ihkeys⟩ := ih (acquireSlot t s).2 hinv'
    refine ⟨?_, ?_, ?_, ?_⟩
    · simpa [assignSlots] using ihinv
    · intro u v hv
      simpa [assignSlots] using ihpres u v (hpres u v hv)
    · intro p hp
      simp only [assignSlots] at hp ⊢
      rcases List.mem_cons.mp hp with hp | hp
      · subst hp
        exact ihpres t (acquireSlot t s).1 hself
      · exact ihasg p hp
    · intro k hk
      simp only [assignSlots] at hk
      rcases ihkeys k hk with hk | hk
      · rcases hkeys k hk with hk | hk
        · exact Or.inl hk
        · exact Or.inr (by simp [hk])
      · exact Or.inr (List.mem_cons_of_mem _ hk)

/-! ## C9: stable, unique slot assignment -/

/-- C9: during a parallel pass with worker count `N = GetNSlots imt pool`
(the pool size when implicit parallelism is enabled, else 1), provided at
most `N` distinct worker threads enter the pass (the pool's contract),
every slot handed out under the slot mutex lies in `[0, N)`; entries by
the same thread always receive the same slot (the first acquires it, every
subsequent entry reuses it); and entries by distinct threads receive
distinct slots.  `tids` is the arrival order of the workers' critical
sections, which the mutex serialises. -/
theorem slot_assignment_unique (tids : List Nat) (imt : Bool) (pool : Nat)
    (hN : tids.dedup.length ≤ GetNSlots imt pool) :
    (∀ p ∈ (assignSlots tids ⟨[], 0⟩).1, p.2 < GetNSlots imt pool) ∧
    (∀ p ∈ (assignSlots tids ⟨[], 0⟩).1, ∀ q ∈ (assignSlots tids ⟨[], 0⟩).1,
      p.1 = q.1 → p.2 = q.2) ∧
    (∀ p ∈ (assignSlots tids ⟨[], 0⟩).1, ∀ q ∈ (assignSlots tids ⟨[], 0⟩).1,
      p.2 = q.2 → p.1 = q.1) := by
  have hinv0 : SlotInv ⟨[], 0⟩ := by
    refine ⟨by simp, by simp, by simp, by simp⟩
  obtain ⟨hinvF, _, hasg, hkeys⟩ := assignSlots_spec tids ⟨[], 0⟩ hinv0
  obtain ⟨hlt, hnd, hinj, hlen⟩ := hinvF
  set sF := (assignSlots tids ⟨[], 0⟩).2 with hsF
  have hcard : sF.gsi ≤ GetNSlots imt pool := by
    have hsub : (sF.map.map Prod.fst).toFinset ⊆ tids.toFinset := by
      intro a ha
      rcases hkeys a (List.mem_toFinset.mp ha) with h | h
      · simp at h
      · exact List.mem_toFinset.mpr h
    calc sF.gsi = sF.map.length := hlen
    _ = (sF.map.map Prod.fst).length := by simp
    _ = (sF.map.map Prod.fst).toFinset.card := (List.toFinset_card_of_nodup hnd).symm
    _ ≤ tids.toFinset.card := Finset.card_le_card hsub
    _ = tids.dedup.length := List.card_toFinset tids
    _ ≤ GetNSlots imt pool := hN
  refine ⟨?_, ?_, ?_⟩
  · intro p hp
    exact lt_of_lt_of_le (hlt _ (lookup_mem (hasg p hp))) hcard
  · intro p hp q hq hpq
    have h1 := hasg p hp
    have h2 := hasg q hq
    rw [hpq] at h1
    rw [h1] at h2
    exact Option.some_inj.mp h2
  · intro p hp q hq hpq
    exact hinj _ (lookup_mem (hasg p hp)) _ (lookup_mem (hasg q hq)) hpq

/-- C9, witness: four worker entries by three distinct threads with a
pool of three: the first entry of each thread gets a fresh slot below 3,
the repeated entry of thread 10 reuses slot 0. -/
theorem slot_assignment_unique_witness :
    (assignSlots [10, 20, 10, 30] ⟨[], 0⟩).1 =
      [(10, 0), (20, 1), (10, 0), (30, 2)] ∧
    (∀ p ∈ (assignSlots [10, 20, 10, 30] ⟨[], 0⟩).1,
      p.2 < GetNSlots true 3) ∧
    (∀ p ∈ (assignSlots [10, 20, 10, 30] ⟨[], 0⟩).1,
      ∀ q ∈ (assignSlots [10, 20, 10, 30] ⟨[], 0⟩).1,
        p.2 = q.2 → p.1 = q.1) :=
  ⟨by decide,
   (slot_assignment_unique [10, 20, 10, 30] true 3 (by decide)).1,
   (slot_assignment_unique [10, 20, 10, 30] true 3 (by decide)).2.2⟩

theorem insertOrReplace_lookup (m : List (String × Nat)) (nm : String)
    (v : Nat) : (insertOrReplace m nm v).lookup nm = some v := by
  induction m with
  | nil => simp [insertOrReplace, List.lookup]
  | cons kv rest ih =>
    obtain ⟨k, w⟩ := kv
    by_cases hk : k = nm
    · subst hk
      simp [insertOrReplace, List.lookup]
    · simp only [insertOrReplace, if_neg hk, List.lookup]
      have : (nm == k) = false := by
        simp [beq_iff_eq]
        exact fun h => hk h.symm
      simp [this, ih]

/-! ## C6: input-list selection and arity checking -/

/-- C6, counterexample: with a callable of arity 1, no explicit input list
and default list `["a", "b"]`, the claim says the first entry `["a"]` is
used; `PickBranchNames` instead fails with an arity mismatch, because the
default list is consulted only when its size equals the arity exactly. -/
theorem pickBranchNames_first_k_cex :
    PickBranchNames 1 [] ["a", "b"] ≠ Except.ok ["a"] ∧
    PickBranchNames 1 [] ["a", "b"] =
      Except.error (mismatchMsg 1 [] ["a", "b"]) := by
  have h : PickBranchNames 1 [] ["a", "b"] =
      Except.error (mismatchMsg 1 [] ["a", "b"]) := rfl
  exact ⟨by rw [h]; exact fun hc => Except.noConfusion hc, h⟩

/-- C6 (amended): when a node is booked without an explicit input list and
its callable expects `k` inputs, the default column list is used as the
inputs only when its size equals `k` exactly; booking fails with an
arity-mismatch error if the explicit list is empty and the default list's
size differs from `k` (fewer or more entries), or if an explicit non-empty
input list is given whose size differs from the callable's arity. -/
theorem pickBranchNames_arity (nArgs : Nat) (bl defBl : List String) :
    (nArgs = bl.length → PickBranchNames nArgs bl defBl = Except.ok bl) ∧
    (nArgs ≠ bl.length → bl = [] → nArgs = defBl.length →
      PickBranchNames nArgs bl defBl = Except.ok defBl) ∧
    (nArgs ≠ bl.length → (bl ≠ [] ∨ nArgs ≠ defBl.length) →
      PickBranchNames nArgs bl defBl =
        Except.error (mismatchMsg nArgs bl defBl)) ∧
    ((∃ out, PickBranchNames nArgs bl defBl = Except.ok out) ↔
      (nArgs = bl.length ∨ (bl = [] ∧ nArgs = defBl.length))) := by
  have h1 : ∀ _ : nArgs = bl.length,
      PickBranchNames nArgs bl defBl = Except.ok bl := by
    intro h
    unfold PickBranchNames
    rw [if_neg (by simp [h])]
  have h2 : nArgs ≠ bl.length → bl = [] → nArgs = defBl.length →
      PickBranchNames nArgs bl defBl = Except.ok defBl := by
    intro h hbl hdef
    unfold PickBranchNames
    rw [if_pos h, if_pos ⟨by simp [hbl], hdef⟩]
  have h3 : nArgs ≠ bl.length → (bl ≠ [] ∨ nArgs ≠ defBl.length) →
      PickBranchNames nArgs bl defBl =
        Except.error (mismatchMsg nArgs bl defBl) := by
    intro h hor
    have hcond : ¬(bl.length = 0 ∧ nArgs = defBl.length) := by
      rintro ⟨hl, hd⟩
      rcases hor with hbl | hdef
      · exact hbl (List.length_eq_zero.mp hl)
      · exact hdef hd
    unfold PickBranchNames
    rw [if_pos h, if_neg hcond]
  refine ⟨h1, h2, h3, ?_⟩
  constructor
  · rintro ⟨out, hout⟩
    by_cases h : nArgs = bl.length
    · exact Or.inl h
    · by_cases hbl : bl = []
      · by_cases hdef : nArgs = defBl.length
        · exact Or.inr ⟨hbl, hdef⟩
        · rw [h3 h (Or.inr hdef)] at hout
          exact Except.noConfusion hout
      · rw [h3 h (Or.inl hbl)] at hout
        exact Except.noConfusion hout
  · rintro (h | ⟨hbl, hdef⟩)
    · exact ⟨bl, h1 h⟩
    · by_cases h : nArgs = bl.length
      · exact ⟨bl, h1 h⟩
      · exact ⟨defBl, h2 h hbl hdef⟩

/-- C6, witness: the three behaviours at concrete inputs. -/
theorem pickBranchNames_arity_witness :
    PickBranchNames 2 ["x", "y"] [] = Except.ok ["x", "y"] ∧
    PickBranchNames 2 [] ["u", "v"] = Except.ok ["u", "v"] ∧
    PickBranchNames 1 ["x", "y"] ["u"] =
      Except.error (mismatchMsg 1 ["x", "y"] ["u"]) :=
  ⟨(pickBranchNames_arity 2 ["x", "y"] []).1 (by decide),
   (pickBranchNames_arity 2 [] ["u", "v"]).2.1 (by decide) rfl (by decide),
   (pickBranchNames_arity 1 ["x", "y"] ["u"]).2.2.1 (by decide)
     (Or.inl (by decide))⟩

/-! ## C5: duplicate-name checking when booking a derived column -/

/-- C5, counterexample: with persistent column `A` and derived column `D`
already booked, booking a second derived column named `D` does not fail:
`CheckTmpBranch` consults only the tree's branches, and
`Book(TmpBranchBasePtr_t)` silently replaces the map entry.  The first
conjunct shows `D` is indeed already booked, the second that the colliding
booking succeeds anyway. -/
theorem addCol_duplicate_derived_cex :
    dfDupBranch.bookedBranches.lookup "D" = some 0 ∧
    (AddCol dfDupBranch "D" (fun _ => Except.ok 1) []).isOk = true := by
  constructor <;> rfl

/-- C5 (amended): booking a derived column fails with a duplicate-name
error exactly when the name collides with a persistent source column; a
collision with a previously booked derived column of the same graph is not
detected -- the new booking replaces the earlier entry of the
derived-column map. -/
theorem addCol_duplicate_name (df : TDataFrameImpl) (nm : String)
    (f : Nat → Except String Int) (deps : List Nat) :
    (df.treeBranches.contains nm = true →
      AddCol df nm f deps =
        Except.error ("branch \"" ++ nm ++ "\" already present in TTree")) ∧
    (df.treeBranches.contains nm = false →
      AddCol df nm f deps = Except.ok (bookBranch df nm f deps)) ∧
    (bookBranch df nm f deps).bookedBranches.lookup nm =
      some df.nodes.length := by
  refine ⟨fun h => ?_, fun h => ?_, ?_⟩
  · have hm : nm ∈ df.treeBranches := by simpa using h
    simp [AddCol, CheckTmpBranch, hm]
  · have hm : nm ∉ df.treeBranches := by simpa using h
    simp [AddCol, CheckTmpBranch, hm]
  · exact insertOrReplace_lookup df.bookedBranches nm df.nodes.length

/-- C5, witness: both branches of the check at concrete inputs. -/
theorem addCol_duplicate_name_witness :
    AddCol dfDupBranch "A" (fun _ => Except.ok 1) [] =
      Except.error ("branch \"A\" already present in TTree") ∧
    AddCol dfDupBranch "D" (fun _ => Except.ok 1) [] =
      Except.ok (bookBranch dfDupBranch "D" (fun _ => Except.ok 1) []) :=
  ⟨(addCol_duplicate_name dfDupBranch "A" (fun _ => Except.ok 1) []).1 rfl,
   (addCol_duplicate_name dfDupBranch "D" (fun _ => Except.ok 1) []).2.1 rfl⟩

/-! ## Lemmas on the completion steps of `Run` -/

theorem setFlags_not_mem (l : List Nat) (flags : Nat → Bool) (j : Nat)
    (hj : j ∉ l) : setFlags flags l j = flags j := by
  induction l generalizing flags with
  | nil => rfl
  | cons k rest ih =>
    have hk : j ≠ k := fun hc => hj (hc ▸ List.mem_cons_self k rest)
    have hr : j ∉ rest := fun hc => hj (List.mem_cons_of_mem _ hc)
    rw [setFlags, ih _ hr]
    simp [hk]

theorem setFlags_mem (l : List Nat) (flags : Nat → Bool) (j : Nat)
    (hj : j ∈ l) : setFlags flags l j = true := by
  induction l generalizing flags with
  | nil => simp at hj
  | cons k rest ih =>
    by_cases hr : j ∈ rest
    · rw [setFlags]
      exact ih _ hr
    · have hk : j = k := by
        rcases List.mem_cons.mp hj with hk | hr' ; exact hk ; exact absurd hr' hr
      rw [setFlags, setFlags_not_mem _ _ _ hr]
      simp [hk]

theorem finishRun_err {df : TDataFrameImpl} {p : PassSt}
    {df₁ : TDataFrameImpl} {m : String}
    (h : finishRun df p = (df₁, some m)) :
    p.err = some m ∧ df₁ = { df with nodeSt := p.st, accs := p.accs } := by
  unfold finishRun at h
  cases hp : p.err with
  | some m' =>
    rw [hp] at h
    injection h with h1 h2
    injection h2 with h2
    exact ⟨by rw [h2], h1.symm⟩
  | none =>
    rw [hp] at h
    injection h with h1 h2
    exact Option.noConfusion h2

theorem finishRun_ok {df : TDataFrameImpl} {p : PassSt}
    {df₁ : TDataFrameImpl}
    (h : finishRun df p = (df₁, none)) :
    p.err = none ∧
    df₁ = { df with
      nodeSt := p.st, accs := p.accs, hasRunAtLeastOnce := true,
      actions := [], flags := setFlags df.flags df.proxies,
      proxies := [] } := by
  unfold finishRun at h
  cases hp : p.err with
  | some m' =>
    rw [hp] at h
    injection h with h1 h2
    exact Option.noConfusion h2
  | none =>
    rw [hp] at h
    injection h with h1 h2
    exact ⟨rfl, h1.symm⟩

/-! ## C8: the completion steps of a successful pass -/

/-- C8: after `Run` completes successfully, the booked-actions list is
cleared, every registered readiness flag is set to `true` (and the proxy
list is forgotten), the has-run flag is `true`, while the booked filters,
branches and their bookkeeping (the node states with their accept/reject
counters, exactly as the event loop left them) are retained unchanged. -/
theorem run_success_frame (df df' : TDataFrameImpl)
    (h : Run df = (df', none)) :
    df'.actions = [] ∧
    df'.hasRunAtLeastOnce = true ∧
    (∀ j ∈ df.proxies, df'.flags j = true) ∧
    df'.proxies = [] ∧
    df'.nodes = df.nodes ∧
    df'.namedFilters = df.namedFilters ∧
    df'.bookedBranches = df.bookedBranches ∧
    df'.treeBranches = df.treeBranches ∧
    df'.nodeSt = (runLoop df.nodes df.actions df.namedFilters
      (List.range df.nRows) ⟨createSlots df.nodeSt, df.accs, [], none⟩).st ∧
    df'.accs = (runLoop df.nodes df.actions df.namedFilters
      (List.range df.nRows) ⟨createSlots df.nodeSt, df.accs, [], none⟩).accs := by
  have h' : finishRun df (runLoop df.nodes df.actions df.namedFilters
      (List.range df.nRows) ⟨createSlots df.nodeSt, df.accs, [], none⟩) =
      (df', none) := h
  obtain ⟨hperr, hdf⟩ := finishRun_ok h'
  subst hdf
  exact ⟨rfl, rfl, fun j hj => setFlags_mem _ _ _ hj, rfl, rfl, rfl, rfl, rfl,
    rfl, rfl⟩

/-- C8, witness: the two-row count pipeline completes; its action list is
cleared, its handle flag is set, the has-run flag is true. -/
theorem run_success_frame_witness :
    (Run dfCount).2 = none ∧
    (Run dfCount).1.actions = [] ∧
    (Run dfCount).1.flags 0 = true ∧
    (Run dfCount).1.hasRunAtLeastOnce = true :=
  ⟨rfl, (run_success_frame dfCount (Run dfCount).1 rfl).1,
   (run_success_frame dfCount (Run dfCount).1 rfl).2.2.1 0 (by decide),
   (run_success_frame dfCount (Run dfCount).1 rfl).2.1⟩

/-! ## C1: one pass per first observation, cached afterwards -/

/-- C1: a result handle observed before any pass drives exactly one pass,
which succeeds and publishes the finalised value; observing the same
handle again returns the same value without driving another pass and
without changing the root; and `report` called twice on the resulting root
prints identical lines (and drives no further pass). -/
theorem observe_drives_one_pass (df df₁ : TDataFrameImpl) (h n : Nat)
    (err : Option String) (v : Option Int)
    (hflag : df.flags h = false) (hmem : h ∈ df.proxies)
    (hok : (Run df).2 = none)
    (hobs : observe df h = (df₁, n, err, v)) :
    n = 1 ∧ err = none ∧ v = some (df₁.accs h) ∧
    observe df₁ h = (df₁, 0, none, v) ∧
    report df₁ = (df₁, 0, none, Report df₁) ∧
    report (report df₁).1 = (df₁, 0, none, Report df₁) := by
  have hpair : Run df = ((Run df).1, none) := Prod.ext rfl hok
  have hfin : finishRun df (runLoop df.nodes df.actions df.namedFilters
      (List.range df.nRows) ⟨createSlots df.nodeSt, df.accs, [], none⟩) =
      ((Run df).1, none) := hpair
  obtain ⟨-, hdf⟩ := finishRun_ok hfin
  unfold observe at hobs
  rw [hflag, hok] at hobs
  simp only [Bool.false_eq_true, if_false, Prod.mk.injEq] at hobs
  obtain ⟨h1, h2, h3, h4⟩ := hobs
  subst h1
  subst h2
  subst h3
  subst h4
  have hflag₁ : (Run df).1.flags h = true := by
    rw [hdf]
    exact setFlags_mem _ _ _ hmem
  have hrun₁ : (Run df).1.hasRunAtLeastOnce = true := by rw [hdf]
  have hrep1 : report (Run df).1 = ((Run df).1, 0, none, Report (Run df).1) := by
    unfold report
    rw [hrun₁]
    simp
  refine ⟨rfl, rfl, rfl, ?_, hrep1, ?_⟩
  · unfold observe
    rw [hflag₁]
    simp
  · rw [hrep1]
    exact hrep1

/-- C1, witness: the two-row count pipeline; the first observation of the
handle drives one pass and yields 2, the second returns the same value
with no pass and no state change. -/
theorem observe_drives_one_pass_witness :
    (observe dfCount 0).2.1 = 1 ∧
    observe (observe dfCount 0).1 0 = ((observe dfCount 0).1, 0, none, some 2) := by
  have H := observe_drives_one_pass dfCount (observe dfCount 0).1 0
    (observe dfCount 0).2.1 (observe dfCount 0).2.2.1 (observe dfCount 0).2.2.2
    rfl (by decide) rfl rfl
  refine ⟨H.1, ?_⟩
  have hv : (observe dfCount 0).2.2.2 = some 2 := by decide
  rw [H.2.2.2.1, hv]

/-! ## C7: a throwing callable aborts the pass and leaves handles unready -/

/-- C7: when a user callable throws during the pass, the failure
propagates out of the observation that drove it; the readiness flags, the
booked-actions list, the proxy list and the has-run flag are all left
exactly as they were (so every handle remains unready); and a subsequent
observation of the same handle drives a fresh pass, raising again whatever
failure that pass hits. -/
theorem run_failure_leaves_unready (df df₁ : TDataFrameImpl) (h : Nat)
    (m : String)
    (hflag : df.flags h = false)
    (hrun : Run df = (df₁, some m)) :
    observe df h = (df₁, 1, some m, none) ∧
    df₁.flags = df.flags ∧
    df₁.actions = df.actions ∧
    df₁.proxies = df.proxies ∧
    df₁.hasRunAtLeastOnce = df.hasRunAtLeastOnce ∧
    df₁.nodes = df.nodes ∧
    df₁.namedFilters = df.namedFilters ∧
    (∀ df₂ m₂, Run df₁ = (df₂, some m₂) →
      observe df₁ h = (df₂, 1, some m₂, none)) := by
  have hfin : finishRun df (runLoop df.nodes df.actions df.namedFilters
      (List.range df.nRows) ⟨createSlots df.nodeSt, df.accs, [], none⟩) =
      (df₁, some m) := hrun
  obtain ⟨hperr, hdf⟩ := finishRun_err hfin
  have hobs : observe df h = (df₁, 1, some m, none) := by
    unfold observe
    rw [hflag, hrun]
    simp
  have hflag₁ : df₁.flags h = false := by rw [hdf]; exact hflag
  refine ⟨hobs, by rw [hdf], by rw [hdf], by rw [hdf], by rw [hdf],
    by rw [hdf], by rw [hdf], ?_⟩
  intro df₂ m₂ hrun₂
  unfold observe
  rw [hflag₁, hrun₂]
  simp

/-- C7, witness: scenario S5 -- a derived column that throws on entry 3.
The first observation propagates the failure, the root's flag stays
unready, the action list is kept, and the second observation re-runs and
raises the same failure. -/
theorem run_failure_leaves_unready_witness :
    observe dfThrow 0 =
      ((Run dfThrow).1, 1, some "user callable failure on entry 3", none) ∧
    (Run dfThrow).1.flags 0 = false ∧
    (Run dfThrow).1.actions = dfThrow.actions ∧
    observe (Run dfThrow).1 0 =
      ((Run (Run dfThrow).1).1, 1,
        some "user callable failure on entry 3", none) := by
  have H := run_failure_leaves_unready dfThrow (Run dfThrow).1 0
    "user callable failure on entry 3" rfl rfl
  refine ⟨H.1, ?_, H.2.2.1, ?_⟩
  · rw [H.2.1]
    decide
  · exact H.2.2.2.2.2.2.2 (Run (Run dfThrow).1).1
      "user callable failure on entry 3" rfl

/-! ## C10: unnamed filters are excluded from the cutflow report -/

theorem filterName_append (nodes l : List Node) (i : Nat)
    (h : i < nodes.length) :
    filterName (nodes ++ l) i = filterName nodes i := by
  unfold filterName
  rw [List.getElem?_append_left h]

theorem printReport_append (nodes l : List Node)
    (sts : List (Nat → NodeState)) (i : Nat) (h : i < nodes.length) :
    printReport (nodes ++ l) sts i = printReport nodes sts i := by
  unfold printReport
  rw [filterName_append nodes l i h]

/-- C10: a filter booked with the empty string is unnamed: `HasName`
returns `false` on it, booking appends it to the node list but leaves the
named-filter list unchanged, and the report lines are exactly the ones
printed before.  A filter booked with a non-empty name is appended to the
named-filter list, and the report gains exactly one line, carrying that
name: the cutflow report lists exactly the filters booked with non-empty
names, in booking order. -/
theorem unnamed_filter_not_reported (df : TDataFrameImpl)
    (pred : Nat → Except String Bool) (nm : String) (parent : Option Nat)
    (deps : List Nat)
    (hidx : ∀ i ∈ df.namedFilters, i < df.nodes.length) :
    HasName "" = false ∧
    (bookFilter df pred "" parent deps).nodes =
      df.nodes ++ [⟨NodeKind.filter pred "", parent, deps⟩] ∧
    (bookFilter df pred "" parent deps).namedFilters = df.namedFilters ∧
    Report (bookFilter df pred "" parent deps) = Report df ∧
    (nm ≠ "" → (bookFilter df pred nm parent deps).namedFilters =
      df.namedFilters ++ [df.nodes.length]) ∧
    (nm ≠ "" → Report (bookFilter df pred nm parent deps) =
      Report df ++ [printReport (bookFilter df pred nm parent deps).nodes
        [df.nodeSt] df.nodes.length]) ∧
    (nm ≠ "" → filterName (bookFilter df pred nm parent deps).nodes
      df.nodes.length = nm) := by
  have hname : HasName "" = false := rfl
  have happend : ∀ i ∈ df.namedFilters, ∀ l : List Node,
      printReport (df.nodes ++ l) [df.nodeSt] i =
        printReport df.nodes [df.nodeSt] i :=
    fun i hi l => printReport_append df.nodes l [df.nodeSt] i (hidx i hi)
  have h3 : (bookFilter df pred "" parent deps).namedFilters =
      df.namedFilters := by
    unfold bookFilter
    rw [hname]
    simp
  have h5 : ∀ _ : nm ≠ "", (bookFilter df pred nm parent deps).namedFilters =
      df.namedFilters ++ [df.nodes.length] := by
    intro hn
    have hhn : HasName nm = true := by simpa [HasName] using hn
    unfold bookFilter
    rw [hhn]
    simp
  refine ⟨hname, rfl, h3, ?_, h5, ?_, ?_⟩
  · unfold Report
    rw [h3]
    refine List.map_congr_left fun i hi => ?_
    exact happend i hi [⟨NodeKind.filter pred "", parent, deps⟩]
  · intro hn
    unfold Report
    rw [h5 hn, List.map_append]
    congr 1
    refine List.map_congr_left fun i hi => ?_
    exact happend i hi [⟨NodeKind.filter pred nm, parent, deps⟩]
  · intro hn
    unfold bookFilter filterName
    rw [List.getElem?_concat_length]

/-! ## The step invariants of one entry's processing -/

theorem step_refl (nodes : List Node) (e : Nat) (st : Nat → NodeState) :
    Step nodes e st st [] := by
  refine ⟨fun k _ => rfl, fun k => Or.inl rfl, by simp, by simp,
    fun k => by simp, fun h => h, ?_, by simp⟩
  intro _ k hk hk'
  exact absurd hk hk'

theorem step_comp {nodes : List Node} {e : Nat}
    {st₀ st₁ st₂ : Nat → NodeState} {t1 t2 : List (Nat × Nat)}
    (s1 : Step nodes e st₀ st₁ t1) (s2 : Step nodes e st₁ st₂ t2) :
    Step nodes e st₀ st₂ (t1 ++ t2) := by
  have hmem12 : ∀ k, (k, e) ∈ t1 → (k, e) ∉ t2 := by
    intro k h1 h2
    exact (s2.trace _ h2).2.1 (s1.trace _ h1).2.2
  refine ⟨?_, ?_, ?_, ?_, ?_, ?_, ?_, ?_⟩
  · intro k hk
    rw [s2.untouched k (by rw [s1.untouched k hk]; exact hk), s1.untouched k hk]
  · intro k
    rcases s2.evolve k with h2 | h2
    · rw [h2]
      exact s1.evolve k
    · exact Or.inr h2
  · intro p hp
    rcases List.mem_append.mp hp with hp | hp
    · obtain ⟨ha, hb, hc⟩ := s1.trace p hp
      exact ⟨ha, hb, by rw [s2.untouched p.1 hc]; exact hc⟩
    · obtain ⟨ha, hb, hc⟩ := s2.trace p hp
      refine ⟨ha, fun h0 => ?_, hc⟩
      rw [s1.untouched p.1 h0] at hb
      exact hb h0
  · intro k
    rw [List.count_append]
    by_cases h1 : (k, e) ∈ t1
    · have h2 : t2.count (k, e) = 0 := List.count_eq_zero.mpr (hmem12 k h1)
      have := s1.once k
      omega
    · have h1' : t1.count (k, e) = 0 := List.count_eq_zero.mpr h1
      have := s2.once k
      omega
  · intro k
    rw [s2.tally k, s1.tally k]
    by_cases hn : isNamedIdx nodes k = true
    · by_cases h1 : (k, e) ∈ t1
      · have h2 := hmem12 k h1
        simp [h1, h2, hn, List.mem_append]
      · by_cases h2 : (k, e) ∈ t2
        · simp [h1, h2, hn, List.mem_append]
        · simp [h1, h2, hn, List.mem_append]
    · simp [hn]
  · exact fun h => s2.cons (s1.cons h)
  · intro h k hk2 hk0
    by_cases h1 : (st₁ k).lastChecked = (e : Int)
    · rcases s1.became h k h1 hk0 with hin | hpf
      · exact Or.inl (List.mem_append.mpr (Or.inl hin))
      · exact Or.inr hpf
    · rcases s2.became (s1.cons h) k hk2 h1 with hin | hpf
      · exact Or.inl (List.mem_append.mpr (Or.inr hin))
      · exact Or.inr hpf
  · intro h p hp hf
    rcases List.mem_append.mp hp with hp | hp
    · exact s1.chainAcc h p hp hf
    · exact s2.chainAcc (s1.cons h) p hp hf

/-! ## Purity of the reference chain semantics -/

theorem filterResGo_stable {nodes : List Node} {e : Nat}
    (hWF : WFNodes nodes) :
    ∀ fuel j, j < fuel → filterResGo nodes e fuel j = filterRes nodes j e := by
  intro fuel
  induction fuel using Nat.strong_induction_on with
  | _ fuel ih =>
    intro j hj
    cases fuel with
    | zero => exact absurd hj (Nat.not_lt_zero j)
    | succ f =>
      rw [filterRes]
      cases hn : nodes[j]? with
      | none => simp [filterResGo, hn]
      | some nd =>
        cases hk : nd.kind with
        | tmpbranch fb => simp [filterResGo, hn, hk]
        | filter pred nm =>
          cases hp : nd.parent with
          | none => simp [filterResGo, hn, hk, hp]
          | some k =>
            have hkj : k < j := ((hWF j nd hn).1 k hp).1
            have e1 : filterResGo nodes e f k = filterRes nodes k e :=
              ih f (Nat.lt_succ_self f) k
                (lt_of_lt_of_le hkj (Nat.lt_succ_iff.mp hj))
            have e2 : filterResGo nodes e j k = filterRes nodes k e :=
              ih j hj k hkj
            simp only [filterResGo, hn, hk, hp]
            rw [e1, e2]

theorem parentRes_of_none {nodes : List Node} {e i : Nat} {nd : Node}
    (hn : nodes[i]? = some nd) (hp : nd.parent = none) :
    parentRes nodes i e = Except.ok true := by
  simp [parentRes, hn, hp]

theorem parentRes_of_some {nodes : List Node} {e i j : Nat} {nd : Node}
    (hn : nodes[i]? = some nd) (hp : nd.parent = some j) :
    parentRes nodes i e = filterRes nodes j e := by
  simp [parentRes, hn, hp]

theorem filterRes_unfold {nodes : List Node} {e : Nat} (hWF : WFNodes nodes)
    {i : Nat} {nd : Node} {pred : Nat → Except String Bool} {nm : String}
    (hn : nodes[i]? = some nd) (hk : nd.kind = NodeKind.filter pred nm) :
    filterRes nodes i e =
      match parentRes nodes i e with
      | Except.error m => Except.error m
      | Except.ok b => if b then pred e else Except.ok false := by
  rw [filterRes]
  cases hp : nd.parent with
  | none =>
    rw [parentRes_of_none hn hp]
    simp [filterResGo, hn, hk, hp]
  | some j =>
    have hj : j < i := ((hWF i nd hn).1 j hp).1
    rw [parentRes_of_some hn hp]
    simp only [filterResGo, hn, hk, hp]
    rw [filterResGo_stable hWF i j hj]

/-! ## Bounds for the fold over maxima -/

theorem le_foldr_max {l : List Nat} {x : Nat} (hx : x ∈ l) :
    x ≤ l.foldr max 0 := by
  induction l with
  | nil => simp at hx
  | cons a t ih =>
    rcases List.mem_cons.mp hx with h | h
    · subst h
      exact le_max_left _ _
    · exact le_trans (ih h) (le_max_right _ _)

theorem foldr_max_le {l : List Nat} {b : Nat} (h : ∀ x ∈ l, x ≤ b) :
    l.foldr max 0 ≤ b := by
  induction l with
  | nil => exact Nat.zero_le b
  | cons a t ih =>
    exact max_le (h a (List.mem_cons_self a t))
      (ih fun x hx => h x (List.mem_cons_of_mem a hx))

/-! ## Node-kind projections -/

theorem isFilterIdx_filter {nodes : List Node} {i : Nat} {nd : Node}
    {pred : Nat → Except String Bool} {nm : String}
    (hn : nodes[i]? = some nd) (hk : nd.kind = NodeKind.filter pred nm) :
    isFilterIdx nodes i = true := by
  simp [isFilterIdx, hn, hk]

theorem isFilterIdx_branch {nodes : List Node} {i : Nat} {nd : Node}
    {f : Nat → Except String Int}
    (hn : nodes[i]? = some nd) (hk : nd.kind = NodeKind.tmpbranch f) :
    isFilterIdx nodes i = false := by
  simp [isFilterIdx, hn, hk]

theorem isNamedIdx_filter {nodes : List Node} {i : Nat} {nd : Node}
    {pred : Nat → Except String Bool} {nm : String}
    (hn : nodes[i]? = some nd) (hk : nd.kind = NodeKind.filter pred nm) :
    isNamedIdx nodes i = !(nm == "") := by
  simp [isNamedIdx, hn, hk]

theorem isNamedIdx_branch {nodes : List Node} {i : Nat} {nd : Node}
    {f : Nat → Except String Int}
    (hn : nodes[i]? = some nd) (hk : nd.kind = NodeKind.tmpbranch f) :
    isNamedIdx nodes i = false := by
  simp [isNamedIdx, hn, hk]

theorem isFilterIdx_elim {nodes : List Node} {i : Nat}
    (h : isFilterIdx nodes i = true) :
    ∃ nd pred nm, nodes[i]? = some nd ∧
      nd.kind = NodeKind.filter pred nm := by
  cases hn : nodes[i]? with
  | none => simp [isFilterIdx, hn] at h
  | some nd =>
    cases hk : nd.kind with
    | filter pred nm => exact ⟨nd, pred, nm, rfl, hk⟩
    | tmpbranch f =>
      rw [isFilterIdx_branch hn hk] at h
      exact Bool.noConfusion h

/-! ## Extending a step with one cache update -/

theorem step_updFail_extend {nodes : List Node} {e : Nat}
    {st₀ st₁ : Nat → NodeState} {t1 : List (Nat × Nat)} {i : Nat}
    (hWF : WFNodes nodes)
    (s1 : Step nodes e st₀ st₁ t1)
    (h0 : (st₀ i).lastChecked ≠ (e : Int))
    (h1 : (st₁ i).lastChecked ≠ (e : Int))
    (hfil : isFilterIdx nodes i = true)
    (hpf : ConsSt nodes e st₀ → parentRes nodes i e = Except.ok false) :
    Step nodes e st₀ (updFail i e st₁) t1 := by
  have hne : ∀ p ∈ t1, p.1 ≠ i := by
    intro p hp hpi
    exact h1 (hpi ▸ (s1.trace p hp).2.2)
  refine ⟨?_, ?_, ?_, s1.once, ?_, ?_, ?_, ?_⟩
  · intro k hk
    have hki : k ≠ i := fun hc => h0 (hc ▸ hk)
    simp only [updFail, if_neg hki]
    exact s1.untouched k hk
  · intro k
    by_cases hki : k = i
    · subst hki
      simp [updFail]
    · simp only [updFail, if_neg hki]
      exact s1.evolve k
  · intro p hp
    obtain ⟨ha, hb, hc⟩ := s1.trace p hp
    refine ⟨ha, hb, ?_⟩
    simp only [updFail, if_neg (hne p hp)]
    exact hc
  · intro k
    by_cases hki : k = i
    · subst hki
      have : accRej (updFail k e st₁ k) = accRej (st₁ k) := by
        simp [updFail, accRej]
      rw [this]
      exact s1.tally k
    · simp only [updFail, if_neg hki]
      exact s1.tally k
  · intro h k hf hk
    by_cases hki : k = i
    · subst hki
      have hres : (updFail k e st₁ k).lastResult = false := by simp [updFail]
      rw [hres]
      obtain ⟨nd, pred, nm, hn, hkk⟩ := isFilterIdx_elim hf
      rw [filterRes_unfold hWF hn hkk, hpf h]
      simp
    · simp only [updFail, if_neg hki] at hk ⊢
      exact s1.cons h k hf hk
  · intro h k hk hk0
    by_cases hki : k = i
    · subst hki
      exact Or.inr (hpf h)
    · simp only [updFail, if_neg hki] at hk
      exact s1.became h k hk hk0
  · intro h p hp hf
    exact s1.chainAcc h p hp hf

theorem step_updFilter_extend {nodes : List Node} {e : Nat}
    {st₀ st₂ : Nat → NodeState} {t12 : List (Nat × Nat)} {i : Nat}
    {nd : Node} {pred : Nat → Except String Bool} {nm : String} {b : Bool}
    (hWF : WFNodes nodes)
    (s1 : Step nodes e st₀ st₂ t12)
    (h0 : (st₀ i).lastChecked ≠ (e : Int))
    (h2 : (st₂ i).lastChecked ≠ (e : Int))
    (hn : nodes[i]? = some nd) (hk : nd.kind = NodeKind.filter pred nm)
    (hpt : ConsSt nodes e st₀ → parentRes nodes i e = Except.ok true)
    (hpred : pred e = Except.ok b) :
    Step nodes e st₀ (updFilter i e b nm st₂) (t12 ++ [(i, e)]) := by
  have hne : ∀ p ∈ t12, p.1 ≠ i := by
    intro p hp hpi
    exact h2 (hpi ▸ (s1.trace p hp).2.2)
  have hnotin : (i, e) ∉ t12 := fun hc => hne (i, e) hc rfl
  refine ⟨?_, ?_, ?_, ?_, ?_, ?_, ?_, ?_⟩
  · intro k hk'
    have hki : k ≠ i := fun hc => h0 (hc ▸ hk')
    simp only [updFilter, if_neg hki]
    exact s1.untouched k hk'
  · intro k
    by_cases hki : k = i
    · subst hki
      simp [updFilter]
    · simp only [updFilter, if_neg hki]
      exact s1.evolve k
  · intro p hp
    rcases List.mem_append.mp hp with hp | hp
    · obtain ⟨ha, hb, hc⟩ := s1.trace p hp
      refine ⟨ha, hb, ?_⟩
      simp only [updFilter, if_neg (hne p hp)]
      exact hc
    · simp at hp
      subst hp
      exact ⟨rfl, h0, by simp [updFilter]⟩
  · intro k
    rw [List.count_append]
    by_cases hki : k = i
    · subst hki
      have hz : t12.count (k, e) = 0 := List.count_eq_zero.mpr hnotin
      simp [hz, List.count_singleton]
    · have := s1.once k
      have hz : List.count (k, e) [(i, e)] = 0 := by
        apply List.count_eq_zero.mpr
        simp [hki]
      omega
  · intro k
    by_cases hki : k = i
    · subst hki
      have h1 := s1.tally k
      rw [if_neg (fun hc => hnotin hc.1)] at h1
      have hnamed := isNamedIdx_filter hn hk
      by_cases hb : nm = ""
      · have hfalse : isNamedIdx nodes k = false := by
          rw [hnamed, hb]
          rfl
        rw [if_neg (fun hc => by rw [hfalse] at hc; exact Bool.noConfusion hc.2)]
        have hcnt : accRej (updFilter k e b nm st₂ k) = accRej (st₂ k) := by
          cases b <;> simp [updFilter, accRej, hb]
        rw [hcnt, h1]
      · have htrue : isNamedIdx nodes k = true := by
          rw [hnamed]
          simp [hb]
        rw [if_pos ⟨List.mem_append.mpr (Or.inr (by simp)), htrue⟩]
        have hcnt : accRej (updFilter k e b nm st₂ k) =
            accRej (st₂ k) + 1 := by
          cases b <;> simp [updFilter, accRej, hb] <;> omega
        rw [hcnt, h1]
    · simp only [updFilter, if_neg hki]
      have h1 := s1.tally k
      have hiff : ((k, e) ∈ t12 ++ [(i, e)]) ↔ ((k, e) ∈ t12) := by
        simp [List.mem_append, hki]
      by_cases hm : (k, e) ∈ t12 ∧ isNamedIdx nodes k = true
      · rw [if_pos hm] at h1
        rw [if_pos ⟨hiff.mpr hm.1, hm.2⟩]
        exact h1
      · rw [if_neg hm] at h1
        rw [if_neg (fun hc => hm ⟨hiff.mp hc.1, hc.2⟩)]
        exact h1
  · intro h k hf hk'
    by_cases hki : k = i
    · subst hki
      have hres : filterRes nodes k e = Except.ok b := by
        rw [filterRes_unfold hWF hn hk, hpt h]
        simp [hpred]
      have hlr : (updFilter k e b nm st₂ k).lastResult = b := by
        simp [updFilter]
      rw [hlr]
      exact hres
    · simp only [updFilter, if_neg hki] at hk' ⊢
      exact s1.cons h k hf hk'
  · intro h k hk' hk0
    by_cases hki : k = i
    · subst hki
      exact Or.inl (List.mem_append.mpr (Or.inr (by simp)))
    · simp only [updFilter, if_neg hki] at hk'
      rcases s1.became h k hk' hk0 with hin | hpf
      · exact Or.inl (List.mem_append.mpr (Or.inl hin))
      · exact Or.inr hpf
  · intro h p hp hf
    rcases List.mem_append.mp hp with hp | hp
    · exact s1.chainAcc h p hp hf
    · simp at hp
      subst hp
      exact hpt h

theorem step_updBranch_extend {nodes : List Node} {e : Nat}
    {st₀ st₂ : Nat → NodeState} {t2 : List (Nat × Nat)} {i : Nat}
    {nd : Node} {f : Nat → Except String Int} {v : Int}
    (s1 : Step nodes e st₀ st₂ t2)
    (h0 : (st₀ i).lastChecked ≠ (e : Int))
    (h2 : (st₂ i).lastChecked ≠ (e : Int))
    (hn : nodes[i]? = some nd) (hk : nd.kind = NodeKind.tmpbranch f) :
    Step nodes e st₀ (updBranch i e v st₂) (t2 ++ [(i, e)]) := by
  have hne : ∀ p ∈ t2, p.1 ≠ i := by
    intro p hp hpi
    exact h2 (hpi ▸ (s1.trace p hp).2.2)
  have hnotin : (i, e) ∉ t2 := fun hc => hne (i, e) hc rfl
  refine ⟨?_, ?_, ?_, ?_, ?_, ?_, ?_, ?_⟩
  · intro k hk'
    have hki : k ≠ i := fun hc => h0 (hc ▸ hk')
    simp only [updBranch, if_neg hki]
    exact s1.untouched k hk'
  · intro k
    by_cases hki : k = i
    · subst hki
      simp [updBranch]
    · simp only [updBranch, if_neg hki]
      exact s1.evolve k
  · intro p hp
    rcases List.mem_append.mp hp with hp | hp
    · obtain ⟨ha, hb, hc⟩ := s1.trace p hp
      refine ⟨ha, hb, ?_⟩
      simp only [updBranch, if_neg (hne p hp)]
      exact hc
    · simp at hp
      subst hp
      exact ⟨rfl, h0, by simp [updBranch]⟩
  · intro k
    rw [List.count_append]
    by_cases hki : k = i
    · subst hki
      have hz : t2.count (k, e) = 0 := List.count_eq_zero.mpr hnotin
      simp [hz, List.count_singleton]
    · have := s1.once k
      have hz : List.count (k, e) [(i, e)] = 0 := by
        apply List.count_eq_zero.mpr
        simp [hki]
      omega
  · intro k
    by_cases hki : k = i
    · subst hki
      have h1 := s1.tally k
      rw [if_neg (fun hc => hnotin hc.1)] at h1
      have hfalse := isNamedIdx_branch hn hk
      rw [if_neg (fun hc => by rw [hfalse] at hc; exact Bool.noConfusion hc.2)]
      have hcnt : accRej (updBranch k e v st₂ k) = accRej (st₂ k) := by
        simp [updBranch, accRej]
      rw [hcnt, h1]
    · simp only [updBranch, if_neg hki]
      have h1 := s1.tally k
      have hiff : ((k, e) ∈ t2 ++ [(i, e)]) ↔ ((k, e) ∈ t2) := by
        simp [List.mem_append, hki]
      by_cases hm : (k, e) ∈ t2 ∧ isNamedIdx nodes k = true
      · rw [if_pos hm] at h1
        rw [if_pos ⟨hiff.mpr hm.1, hm.2⟩]
        exact h1
      · rw [if_neg hm] at h1
        rw [if_neg (fun hc => hm ⟨hiff.mp hc.1, hc.2⟩)]
        exact h1
  · intro h k hf hk'
    by_cases hki : k = i
    · subst hki
      rw [isFilterIdx_branch hn hk] at hf
      exact Bool.noConfusion hf
    · simp only [updBranch, if_neg hki] at hk' ⊢
      exact s1.cons h k hf hk'
  · intro h k hk' hk0
    by_cases hki : k = i
    · subst hki
      exact Or.inl (List.mem_append.mpr (Or.inr (by simp)))
    · simp only [updBranch, if_neg hki] at hk'
      rcases s1.became h k hk' hk0 with hin | hpf
      · exact Or.inl (List.mem_append.mpr (Or.inl hin))
      · exact Or.inr hpf
  · intro h p hp hf
    rcases List.mem_append.mp hp with hp | hp
    · exact s1.chainAcc h p hp hf
    · simp at hp
      subst hp
      rw [isFilterIdx_branch hn hk] at hf
      exact Bool.noConfusion hf

/-! ## Fuel-weight arithmetic -/

theorem wDeps_lt_of_wNode {M i fuel : Nat} {ds : List Nat}
    (hlt : ∀ j ∈ ds, j < i) (hlen : ds.length ≤ M)
    (hfuel : wNode M i < fuel + 1) : wDeps M ds < fuel := by
  have hmax : (ds.map (wNode M)).foldr max 0 ≤ i * (M + 2) := by
    apply foldr_max_le
    intro x hx
    simp only [List.mem_map] at hx
    obtain ⟨j, hj, rfl⟩ := hx
    calc wNode M j = (j + 1) * (M + 2) := rfl
    _ ≤ i * (M + 2) := Nat.mul_le_mul_right _ (hlt j hj)
  have hsucc : wNode M i = i * (M + 2) + (M + 2) := Nat.succ_mul i (M + 2)
  unfold wDeps
  omega

theorem wNode_lt_of_parent {M i j fuel : Nat} (hj : j < i)
    (hfuel : wNode M i < fuel + 1) : wNode M j < fuel := by
  have h1 : wNode M j ≤ i * (M + 2) := by
    calc wNode M j = (j + 1) * (M + 2) := rfl
    _ ≤ i * (M + 2) := Nat.mul_le_mul_right _ hj
  have hsucc : wNode M i = i * (M + 2) + (M + 2) := Nat.succ_mul i (M + 2)
  omega

theorem wNode_lt_of_mem {M j fuel : Nat} {ds : List Nat} (hj : j ∈ ds)
    (hfuel : wDeps M ds < fuel + 1) : wNode M j < fuel := by
  have h1 : wNode M j ≤ (ds.map (wNode M)).foldr max 0 :=
    le_foldr_max (List.mem_map_of_mem _ hj)
  have h2 : 1 ≤ ds.length := List.length_pos.mpr (List.ne_nil_of_mem hj)
  unfold wDeps at hfuel
  omega

theorem wDeps_tail_lt {M j fuel : Nat} {rest : List Nat}
    (hfuel : wDeps M (j :: rest) < fuel + 1) : wDeps M rest < fuel := by
  have h1 : (rest.map (wNode M)).foldr max 0 ≤
      ((j :: rest).map (wNode M)).foldr max 0 := by
    simp only [List.map_cons, List.foldr_cons]
    exact le_max_right _ _
  unfold wDeps at hfuel ⊢
  simp only [List.length_cons] at hfuel
  omega

/-! ## Packaging helpers for the main evaluation lemma -/

theorem evalOK_of_eq {nodes : List Node} {e fuel : Nat} {task : ETask}
    {st : Nat → NodeState} {r : EvalRes}
    (hr : evalGo nodes e fuel task st = r)
    (hstep : Step nodes e st r.st r.tr)
    (hb : ∀ p ∈ r.tr, taskBound task p.1)
    (ht : ∀ k, r.st k ≠ st k → taskBound task k)
    (hp8 : ∀ i nd, task = ETask.node i → nodes[i]? = some nd →
      r.err = none → (r.st i).lastChecked = (e : Int)) :
    EvalOK nodes e fuel task st := by
  unfold EvalOK
  rw [hr]
  exact ⟨hstep, hb, ht, hp8⟩

theorem evalOK_of_id {nodes : List Node} {e fuel : Nat} {task : ETask}
    {st : Nat → NodeState}
    (hr : evalGo nodes e fuel task st = ⟨st, [], none⟩)
    (hp8 : ∀ i nd, task = ETask.node i → nodes[i]? = some nd →
      (st i).lastChecked = (e : Int)) :
    EvalOK nodes e fuel task st := by
  refine evalOK_of_eq hr (step_refl nodes e st) (by simp) ?_ ?_
  · intro k hk
    exact absurd rfl hk
  · intro i nd htask hn _
    exact hp8 i nd htask hn

/-! ## The main evaluation lemma -/

/-- Every `evalGo` call with enough fuel satisfies the step invariants:
this is the at-most-once caching discipline of the graph walk.  Fuel above
the task's weight makes the fuel guard unreachable, so the conclusion
describes the source recursion itself. -/
theorem evalGo_spec {nodes : List Node} {e M : Nat}
    (hWF : WFNodes nodes) (hM : ∀ nd ∈ nodes, nd.deps.length ≤ M) :
    ∀ fuel task st, wTask M task < fuel → EvalOK nodes e fuel task st := by
  intro fuel
  induction fuel with
  | zero =>
    intro task st hfuel
    exact absurd hfuel (Nat.not_lt_zero _)
  | succ fuel ih =>
    intro task st hfuel
    cases task with
    | node i =>
      have hfuel' : wNode M i < fuel + 1 := hfuel
      cases hn : nodes[i]? with
      | none =>
        refine evalOK_of_id (by simp [evalGo, hn]) ?_
        intro i' nd htask hn'
        injection htask with hi
        subst hi
        rw [hn] at hn'
        exact Option.noConfusion hn'
      | some nd =>
        have hnd_mem : nd ∈ nodes := List.getElem?_mem hn
        have hdeps_lt : ∀ j ∈ nd.deps, j < i :=
          fun j hj => ((hWF i nd hn).2 j hj).1
        have hdeps_fuel : wDeps M nd.deps < fuel :=
          wDeps_lt_of_wNode hdeps_lt (hM nd hnd_mem) hfuel'
        by_cases hc : (st i).lastChecked = (e : Int)
        · refine evalOK_of_id (by simp [evalGo, hn, hc]) ?_
          intro i' nd' htask hn'
          injection htask with hi
          subst hi
          exact hc
        · cases hk : nd.kind with
          | filter pred nm =>
            cases hp : nd.parent with
            | none =>
              obtain ⟨S2, B2, T2, -⟩ := ih (ETask.deps nd.deps) st hdeps_fuel
              have hb2 : ∀ p ∈ (evalGo nodes e fuel (ETask.deps nd.deps) st).tr,
                  p.1 ≤ i := by
                intro p hp'
                obtain ⟨u, hu, hpu⟩ := B2 p hp'
                exact le_trans hpu (le_of_lt (hdeps_lt u hu))
              have ht2 : ∀ k, (evalGo nodes e fuel (ETask.deps nd.deps) st).st k ≠
                  st k → k ≤ i := by
                intro k hk'
                obtain ⟨u, hu, hku⟩ := T2 k hk'
                exact le_trans hku (le_of_lt (hdeps_lt u hu))
              have hti : (evalGo nodes e fuel (ETask.deps nd.deps) st).st i = st i := by
                by_contra hne
                obtain ⟨u, hu, hiu⟩ := T2 i hne
                exact absurd (hdeps_lt u hu) (not_lt.mpr hiu)
              have h2i : ((evalGo nodes e fuel (ETask.deps nd.deps) st).st i).lastChecked ≠
                  (e : Int) := by
                rw [hti]
                exact hc
              have hpt : ConsSt nodes e st → parentRes nodes i e = Except.ok true :=
                fun _ => parentRes_of_none hn hp
              cases he2 : (evalGo nodes e fuel (ETask.deps nd.deps) st).err with
              | some m =>
                refine evalOK_of_eq
                  (r := ⟨(evalGo nodes e fuel (ETask.deps nd.deps) st).st,
                    (evalGo nodes e fuel (ETask.deps nd.deps) st).tr, some m⟩)
                  (by simp [evalGo, hn, hc, hk, hp, he2]) S2 hb2 ht2 ?_
                intro i' nd' htask hn' herr
                exact Option.noConfusion herr
              | none =>
                cases hpred : pred e with
                | error m =>
                  refine evalOK_of_eq
                    (r := ⟨(evalGo nodes e fuel (ETask.deps nd.deps) st).st,
                      (evalGo nodes e fuel (ETask.deps nd.deps) st).tr, some m⟩)
                    (by simp [evalGo, hn, hc, hk, hp, he2, hpred]) S2 hb2 ht2 ?_
                  intro i' nd' htask hn' herr
                  exact Option.noConfusion herr
                | ok b =>
                  refine evalOK_of_eq
                    (r := ⟨updFilter i e b nm
                        ((evalGo nodes e fuel (ETask.deps nd.deps) st).st),
                      (evalGo nodes e fuel (ETask.deps nd.deps) st).tr ++ [(i, e)],
                      none⟩)
                    (by simp [evalGo, hn, hc, hk, hp, he2, hpred])
                    (step_updFilter_extend hWF S2 hc h2i hn hk hpt hpred) ?_ ?_ ?_
                  · intro p hp'
                    rcases List.mem_append.mp hp' with hp' | hp'
                    · exact hb2 p hp'
                    · simp at hp'
                      subst hp'
                      exact le_refl i
                  · intro k hk'
                    by_cases hki : k = i
                    · exact le_of_eq hki
                    · simp only [updFilter, if_neg hki] at hk'
                      exact ht2 k hk'
                  · intro i' nd' htask hn' _
                    injection htask with hi
                    subst hi
                    simp [updFilter]
            | some j =>
              obtain ⟨hji, hjf⟩ := (hWF i nd hn).1 j hp
              have hjfuel : wNode M j < fuel := wNode_lt_of_parent hji hfuel'
              obtain ⟨S1, B1, T1, P81⟩ := ih (ETask.node j) st hjfuel
              have hb1 : ∀ p ∈ (evalGo nodes e fuel (ETask.node j) st).tr,
                  p.1 ≤ i := fun p hp' => le_trans (B1 p hp') (le_of_lt hji)
              have ht1 : ∀ k, (evalGo nodes e fuel (ETask.node j) st).st k ≠
                  st k → k ≤ i := fun k hk' => le_trans (T1 k hk') (le_of_lt hji)
              have ht1i : (evalGo nodes e fuel (ETask.node j) st).st i = st i := by
                by_contra hne
                exact absurd (T1 i hne) (not_le.mpr hji)
              have h1i : ((evalGo nodes e fuel (ETask.node j) st).st i).lastChecked ≠
                  (e : Int) := by
                rw [ht1i]
                exact hc
              cases he1 : (evalGo nodes e fuel (ETask.node j) st).err with
              | some m =>
                refine evalOK_of_eq
                  (r := ⟨(evalGo nodes e fuel (ETask.node j) st).st,
                    (evalGo nodes e fuel (ETask.node j) st).tr, some m⟩)
                  (by simp [evalGo, hn, hc, hk, hp, he1]) S1 hb1 ht1 ?_
                intro i' nd' htask hn' herr
                exact Option.noConfusion herr
              | none =>
                obtain ⟨ndj, predj, nmj, hnj, hkj⟩ := isFilterIdx_elim hjf
                have hlcj : ((evalGo nodes e fuel (ETask.node j) st).st j).lastChecked =
                    (e : Int) := P81 j ndj rfl hnj he1
                have hpres : ConsSt nodes e st →
                    parentRes nodes i e = Except.ok
                      ((evalGo nodes e fuel (ETask.node j) st).st j).lastResult := by
                  intro h
                  rw [parentRes_of_some hn hp]
                  exact S1.cons h j hjf hlcj
                cases hpres2 : ((evalGo nodes e fuel (ETask.node j) st).st j).lastResult with
                | false =>
                  refine evalOK_of_eq
                    (r := ⟨updFail i e ((evalGo nodes e fuel (ETask.node j) st).st),
                      (evalGo nodes e fuel (ETask.node j) st).tr, none⟩)
                    (by simp [evalGo, hn, hc, hk, hp, he1, hpres2])
                    (step_updFail_extend hWF S1 hc h1i
                      (isFilterIdx_filter hn hk)
                      (fun h => by rw [hpres h, hpres2])) ?_ ?_ ?_
                  · exact hb1
                  · intro k hk'
                    by_cases hki : k = i
                    · exact le_of_eq hki
                    · simp only [updFail, if_neg hki] at hk'
                      exact ht1 k hk'
                  · intro i' nd' htask hn' _
                    injection htask with hi
                    subst hi
                    simp [updFail]
                | true =>
                  obtain ⟨S2, B2, T2, -⟩ :=
                    ih (ETask.deps nd.deps)
                      ((evalGo nodes e fuel (ETask.node j) st).st) hdeps_fuel
                  have S12 := step_comp S1 S2
                  have ht2i : (evalGo nodes e fuel (ETask.deps nd.deps)
                      ((evalGo nodes e fuel (ETask.node j) st).st)).st i =
                      (evalGo nodes e fuel (ETask.node j) st).st i := by
                    by_contra hne
                    obtain ⟨u, hu, hiu⟩ := T2 i hne
                    exact absurd (hdeps_lt u hu) (not_lt.mpr hiu)
                  have h2i : ((evalGo nodes e fuel (ETask.deps nd.deps)
                      ((evalGo nodes e fuel (ETask.node j) st).st)).st i).lastChecked ≠
                      (e : Int) := by
                    rw [ht2i, ht1i]
                    exact hc
                  have hb12 : ∀ p ∈ (evalGo nodes e fuel (ETask.node j) st).tr ++
                      (evalGo nodes e fuel (ETask.deps nd.deps)
                        ((evalGo nodes e fuel (ETask.node j) st).st)).tr, p.1 ≤ i := by
                    intro p hp'
                    rcases List.mem_append.mp hp' with hp' | hp'
                    · exact hb1 p hp'
                    · obtain ⟨u, hu, hpu⟩ := B2 p hp'
                      exact le_trans hpu (le_of_lt (hdeps_lt u hu))
                  have ht12 : ∀ k, (evalGo nodes e fuel (ETask.deps nd.deps)
                      ((evalGo nodes e fuel (ETask.node j) st).st)).st k ≠ st k →
                      k ≤ i := by
                    intro k hk'
                    by_cases hk1 : (evalGo nodes e fuel (ETask.deps nd.deps)
                        ((evalGo nodes e fuel (ETask.node j) st).st)).st k =
                        (evalGo nodes e fuel (ETask.node j) st).st k
                    · rw [hk1] at hk'
                      exact ht1 k hk'
                    · obtain ⟨u, hu, hku⟩ := T2 k hk1
                      exact le_trans hku (le_of_lt (hdeps_lt u hu))
                  cases he2 : (evalGo nodes e fuel (ETask.deps nd.deps)
                      ((evalGo nodes e fuel (ETask.node j) st).st)).err with
                  | some m =>
                    refine evalOK_of_eq
                      (r := ⟨(evalGo nodes e fuel (ETask.deps nd.deps)
                          ((evalGo nodes e fuel (ETask.node j) st).st)).st,
                        (evalGo nodes e fuel (ETask.node j) st).tr ++
                          (evalGo nodes e fuel (ETask.deps nd.deps)
                            ((evalGo nodes e fuel (ETask.node j) st).st)).tr,
                        some m⟩)
                      (by simp [evalGo, hn, hc, hk, hp, he1, hpres2, he2])
                      S12 hb12 ht12 ?_
                    intro i' nd' htask hn' herr
                    exact Option.noConfusion herr
                  | none =>
                    cases hpred : pred e with
                    | error m =>
                      refine evalOK_of_eq
                        (r := ⟨(evalGo nodes e fuel (ETask.deps nd.deps)
                            ((evalGo nodes e fuel (ETask.node j) st).st)).st,
                          (evalGo nodes e fuel (ETask.node j) st).tr ++
                            (evalGo nodes e fuel (ETask.deps nd.deps)
                              ((evalGo nodes e fuel (ETask.node j) st).st)).tr,
                          some m⟩)
                        (by simp [evalGo, hn, hc, hk, hp, he1, hpres2, he2, hpred])
                        S12 hb12 ht12 ?_
                      intro i' nd' htask hn' herr
                      exact Option.noConfusion herr
                    | ok b =>
                      have hstep := step_updFilter_extend hWF S12 hc h2i hn hk
                        (fun h => by rw [hpres h, hpres2]) hpred
                      rw [List.append_assoc] at hstep
                      refine evalOK_of_eq
                        (r := ⟨updFilter i e b nm
                            ((evalGo nodes e fuel (ETask.deps nd.deps)
                              ((evalGo nodes e fuel (ETask.node j) st).st)).st),
                          (evalGo nodes e fuel (ETask.node j) st).tr ++
                            ((evalGo nodes e fuel (ETask.deps nd.deps)
                              ((evalGo nodes e fuel (ETask.node j) st).st)).tr ++
                              [(i, e)]),
                          none⟩)
                        (by simp [evalGo, hn, hc, hk, hp, he1, hpres2, he2, hpred])
                        hstep ?_ ?_ ?_
                      · intro p hp'
                        rcases List.mem_append.mp hp' with hp' | hp'
                        · exact hb1 p hp'
                        · rcases List.mem_append.mp hp' with hp' | hp'
                          · obtain ⟨u, hu, hpu⟩ := B2 p hp'
                            exact le_trans hpu (le_of_lt (hdeps_lt u hu))
                          · simp at hp'
                            subst hp'
                            exact le_refl i
                      · intro k hk'
                        by_cases hki : k = i
                        · exact le_of_eq hki
                        · simp only [updFilter, if_neg hki] at hk'
                          exact ht12 k hk'
                      · intro i' nd' htask hn' _
                        injection htask with hi
                        subst hi
                        simp [updFilter]
          | tmpbranch f =>
            obtain ⟨S2, B2, T2, -⟩ := ih (ETask.deps nd.deps) st hdeps_fuel
            have hb2 : ∀ p ∈ (evalGo nodes e fuel (ETask.deps nd.deps) st).tr,
                p.1 ≤ i := by
              intro p hp'
              obtain ⟨u, hu, hpu⟩ := B2 p hp'
              exact le_trans hpu (le_of_lt (hdeps_lt u hu))
            have ht2 : ∀ k, (evalGo nodes e fuel (ETask.deps nd.deps) st).st k ≠
                st k → k ≤ i := by
              intro k hk'
              obtain ⟨u, hu, hku⟩ := T2 k hk'
              exact le_trans hku (le_of_lt (hdeps_lt u hu))
            have hti : (evalGo nodes e fuel (ETask.deps nd.deps) st).st i = st i := by
              by_contra hne
              obtain ⟨u, hu, hiu⟩ := T2 i hne
              exact absurd (hdeps_lt u hu) (not_lt.mpr hiu)
            have h2i : ((evalGo nodes e fuel (ETask.deps nd.deps) st).st i).lastChecked ≠
                (e : Int) := by
              rw [hti]
              exact hc
            cases he2 : (evalGo nodes e fuel (ETask.deps nd.deps) st).err with
            | some m =>
              refine evalOK_of_eq
                (r := evalGo nodes e fuel (ETask.deps nd.deps) st)
                (by simp [evalGo, hn, hc, hk, he2]) S2 hb2 ht2 ?_
              intro i' nd' htask hn' herr
              rw [he2] at herr
              exact Option.noConfusion herr
            | none =>
              cases hf : f e with
              | error m =>
                refine evalOK_of_eq
                  (r := ⟨(evalGo nodes e fuel (ETask.deps nd.deps) st).st,
                    (evalGo nodes e fuel (ETask.deps nd.deps) st).tr, some m⟩)
                  (by simp [evalGo, hn, hc, hk, he2, hf]) S2 hb2 ht2 ?_
                intro i' nd' htask hn' herr
                exact Option.noConfusion herr
              | ok v =>
                refine evalOK_of_eq
                  (r := ⟨updBranch i e v
                      ((evalGo nodes e fuel (ETask.deps nd.deps) st).st),
                    (evalGo nodes e fuel (ETask.deps nd.deps) st).tr ++ [(i, e)],
                    none⟩)
                  (by simp [evalGo, hn, hc, hk, he2, hf])
                  (step_updBranch_extend S2 hc h2i hn hk) ?_ ?_ ?_
                · intro p hp'
                  rcases List.mem_append.mp hp' with hp' | hp'
                  · exact hb2 p hp'
                  · simp at hp'
                    subst hp'
                    exact le_refl i
                · intro k hk'
                  by_cases hki : k = i
                  · exact le_of_eq hki
                  · simp only [updBranch, if_neg hki] at hk'
                    exact ht2 k hk'
                · intro i' nd' htask hn' _
                  injection htask with hi
                  subst hi
                  simp [updBranch]
    | deps ds =>
      cases ds with
      | nil =>
        refine evalOK_of_id (by simp [evalGo]) ?_
        intro i nd htask
        exact absurd htask (by simp)
      | cons j rest =>
        have hjfuel : wNode M j < fuel :=
          wNode_lt_of_mem (List.mem_cons_self j rest) hfuel
        obtain ⟨S1, B1, T1, -⟩ := ih (ETask.node j) st hjfuel
        have hb1 : ∀ p ∈ (evalGo nodes e fuel (ETask.node j) st).tr,
            taskBound (ETask.deps (j :: rest)) p.1 :=
          fun p hp' => ⟨j, List.mem_cons_self j rest, B1 p hp'⟩
        have ht1 : ∀ k, (evalGo nodes e fuel (ETask.node j) st).st k ≠ st k →
            taskBound (ETask.deps (j :: rest)) k :=
          fun k hk' => ⟨j, List.mem_cons_self j rest, T1 k hk'⟩
        cases he1 : (evalGo nodes e fuel (ETask.node j) st).err with
        | some m =>
          refine evalOK_of_eq (r := evalGo nodes e fuel (ETask.node j) st)
            (by simp [evalGo, he1]) S1 hb1 ht1 ?_
          intro i' nd' htask
          exact absurd htask (by simp)
        | none =>
          have hrfuel : wDeps M rest < fuel := wDeps_tail_lt hfuel
          obtain ⟨S2, B2, T2, -⟩ :=
            ih (ETask.deps rest) ((evalGo nodes e fuel (ETask.node j) st).st)
              hrfuel
          refine evalOK_of_eq
            (r := ⟨(evalGo nodes e fuel (ETask.deps rest)
                ((evalGo nodes e fuel (ETask.node j) st).st)).st,
              (evalGo nodes e fuel (ETask.node j) st).tr ++
                (evalGo nodes e fuel (ETask.deps rest)
                  ((evalGo nodes e fuel (ETask.node j) st).st)).tr,
              (evalGo nodes e fuel (ETask.deps rest)
                ((evalGo nodes e fuel (ETask.node j) st).st)).err⟩)
            (by simp [evalGo, he1]) (step_comp S1 S2) ?_ ?_ ?_
          · intro p hp'
            rcases List.mem_append.mp hp' with hp' | hp'
            · exact hb1 p hp'
            · obtain ⟨u, hu, hpu⟩ := B2 p hp'
              exact ⟨u, List.mem_cons_of_mem j hu, hpu⟩
          · intro k hk'
            by_cases hk1 : (evalGo nodes e fuel (ETask.deps rest)
                ((evalGo nodes e fuel (ETask.node j) st).st)).st k =
                (evalGo nodes e fuel (ETask.node j) st).st k
            · rw [hk1] at hk'
              exact ht1 k hk'
            · obtain ⟨u, hu, hku⟩ := T2 k hk1
              exact ⟨u, List.mem_cons_of_mem j hu, hku⟩
          · intro i' nd' htask
            exact absurd htask (by simp)

/-! ## Frame facts feeding the driver lemmas -/

theorem getElem?_lt {α : Type} {l : List α} {n : Nat} {a : α}
    (h : l[n]? = some a) : n < l.length := by
  by_contra hn
  rw [List.getElem?_eq_none (Nat.le_of_not_lt hn)] at h
  exact Option.noConfusion h

theorem chainPass_iff {nodes : List Node} {i r : Nat} :
    chainPass nodes i r = true ↔ parentRes nodes i r = Except.ok true := by
  unfold chainPass
  cases hr : parentRes nodes i r with
  | error m => simp
  | ok b => cases b <;> simp

theorem isBranchIdx_elim {nodes : List Node} {j : Nat}
    (h : isBranchIdx nodes j = true) :
    ∃ nd f, nodes[j]? = some nd ∧ nd.kind = NodeKind.tmpbranch f := by
  cases hn : nodes[j]? with
  | none => simp [isBranchIdx, hn] at h
  | some nd =>
    cases hk : nd.kind with
    | filter pred nm => simp [isBranchIdx, hn, hk] at h
    | tmpbranch f => exact ⟨nd, f, rfl, hk⟩

theorem isNamedIdx_elim {nodes : List Node} {i : Nat}
    (h : isNamedIdx nodes i = true) :
    ∃ nd pred nm, nodes[i]? = some nd ∧
      nd.kind = NodeKind.filter pred nm ∧ (nm == "") = false := by
  cases hn : nodes[i]? with
  | none => simp [isNamedIdx, hn] at h
  | some nd =>
    cases hk : nd.kind with
    | filter pred nm =>
      rw [isNamedIdx_filter hn hk] at h
      exact ⟨nd, pred, nm, rfl, hk, by simpa using h⟩
    | tmpbranch f =>
      rw [isNamedIdx_branch hn hk] at h
      exact Bool.noConfusion h

theorem isNamedIdx_isFilterIdx {nodes : List Node} {i : Nat}
    (h : isNamedIdx nodes i = true) : isFilterIdx nodes i = true := by
  obtain ⟨nd, pred, nm, hn, hk, -⟩ := isNamedIdx_elim h
  exact isFilterIdx_filter hn hk

theorem isFilterIdx_lt {nodes : List Node} {j : Nat}
    (h : isFilterIdx nodes j = true) : j < nodes.length := by
  obtain ⟨nd, pred, nm, hn, -⟩ := isFilterIdx_elim h
  exact getElem?_lt hn

theorem isBranchIdx_lt {nodes : List Node} {j : Nat}
    (h : isBranchIdx nodes j = true) : j < nodes.length := by
  obtain ⟨nd, f, hn, -⟩ := isBranchIdx_elim h
  exact getElem?_lt hn

theorem maxDepsLen_node {nodes : List Node} {actions : List ActionNode}
    {nd : Node} (hnd : nd ∈ nodes) :
    nd.deps.length ≤ maxDepsLen nodes actions := by
  apply le_foldr_max
  exact List.mem_append.mpr (Or.inl (List.mem_map_of_mem _ hnd))

theorem maxDepsLen_action {nodes : List Node} {actions : List ActionNode}
    {a : ActionNode} (ha : a ∈ actions) :
    a.deps.length ≤ maxDepsLen nodes actions := by
  apply le_foldr_max
  exact List.mem_append.mpr (Or.inr (List.mem_map_of_mem _ ha))

theorem passFuel_node {nodes : List Node} {actions : List ActionNode}
    {i : Nat} (hi : i < nodes.length) :
    wNode (maxDepsLen nodes actions) i < passFuel nodes actions := by
  have h1 : wNode (maxDepsLen nodes actions) i ≤
      nodes.length * (maxDepsLen nodes actions + 2) := by
    calc wNode (maxDepsLen nodes actions) i =
        (i + 1) * (maxDepsLen nodes actions + 2) := rfl
    _ ≤ nodes.length * (maxDepsLen nodes actions + 2) :=
        Nat.mul_le_mul_right _ hi
  have h2 : (nodes.length + 1) * (maxDepsLen nodes actions + 2) =
      nodes.length * (maxDepsLen nodes actions + 2) +
        (maxDepsLen nodes actions + 2) :=
    Nat.succ_mul _ _
  unfold passFuel
  omega

theorem passFuel_deps {nodes : List Node} {actions : List ActionNode}
    {ds : List Nat} (hlt : ∀ j ∈ ds, j < nodes.length)
    (hlen : ds.length ≤ maxDepsLen nodes actions) :
    wDeps (maxDepsLen nodes actions) ds < passFuel nodes actions := by
  have hmax : (ds.map (wNode (maxDepsLen nodes actions))).foldr max 0 ≤
      nodes.length * (maxDepsLen nodes actions + 2) := by
    apply foldr_max_le
    intro x hx
    simp only [List.mem_map] at hx
    obtain ⟨j, hj, rfl⟩ := hx
    calc wNode (maxDepsLen nodes actions) j =
        (j + 1) * (maxDepsLen nodes actions + 2) := rfl
    _ ≤ nodes.length * (maxDepsLen nodes actions + 2) :=
        Nat.mul_le_mul_right _ (hlt j hj)
  have h2 : (nodes.length + 1) * (maxDepsLen nodes actions + 2) =
      nodes.length * (maxDepsLen nodes actions + 2) +
        (maxDepsLen nodes actions + 2) :=
    Nat.succ_mul _ _
  unfold passFuel wDeps
  omega

theorem nodeOk_elim {nodes : List Node} {i : Nat} {nd : Node}
    (h : nodeOk nodes i nd = true) :
    (∀ j, nd.parent = some j → j < i ∧ isFilterIdx nodes j = true) ∧
    (∀ j ∈ nd.deps, j < i ∧ isBranchIdx nodes j = true) := by
  unfold nodeOk at h
  rw [Bool.and_eq_true] at h
  obtain ⟨hpar, hdeps⟩ := h
  constructor
  · intro j hj
    rw [hj, Bool.and_eq_true] at hpar
    exact ⟨by simpa using hpar.1, hpar.2⟩
  · intro j hj
    have := List.all_eq_true.mp hdeps j hj
    rw [Bool.and_eq_true] at this
    exact ⟨by simpa using this.1, this.2⟩

theorem actionOk_elim {nodes : List Node} {a : ActionNode}
    (h : actionOk nodes a = true) :
    (∀ j, a.parent = some j → isFilterIdx nodes j = true) ∧
    (∀ j ∈ a.deps, isBranchIdx nodes j = true) := by
  unfold actionOk at h
  rw [Bool.and_eq_true] at h
  obtain ⟨hpar, hdeps⟩ := h
  constructor
  · intro j hj
    rw [hj] at hpar
    exact hpar
  · exact List.all_eq_true.mp hdeps

theorem WFFrame_elim {nodes : List Node} {actions : List ActionNode}
    {named : List Nat} (h : WFFrame nodes actions named = true) :
    WFNodes nodes ∧ (∀ a ∈ actions, actionOk nodes a = true) ∧
    (∀ i ∈ named, isNamedIdx nodes i = true) := by
  unfold WFFrame at h
  rw [Bool.and_eq_true, Bool.and_eq_true] at h
  obtain ⟨⟨hA, hB⟩, hC⟩ := h
  refine ⟨?_, List.all_eq_true.mp hB, List.all_eq_true.mp hC⟩
  intro i nd hn
  have hi : i < nodes.length := getElem?_lt hn
  have := List.all_eq_true.mp hA i (List.mem_range.mpr hi)
  simp only [hn] at this
  exact nodeOk_elim this

/-! ## Driver-level step lemmas -/

theorem runActions_step {nodes : List Node} {actions : List ActionNode}
    (hWFN : WFNodes nodes)
    (hact : ∀ a ∈ actions, actionOk nodes a = true) (e : Nat) :
    ∀ (pairs : List (Nat × ActionNode)) (st : Nat → NodeState)
      (accs : Nat → Int), (∀ p ∈ pairs, p.2 ∈ actions) →
      Step nodes e st
        (runActions nodes (passFuel nodes actions) e pairs st accs).1
        (runActions nodes (passFuel nodes actions) e pairs st accs).2.2.1 := by
  have hMn : ∀ nd ∈ nodes, nd.deps.length ≤ maxDepsLen nodes actions :=
    fun nd hnd => maxDepsLen_node hnd
  intro pairs
  induction pairs with
  | nil =>
    intro st accs hsub
    exact step_refl nodes e st
  | cons pa rest ih =>
    obtain ⟨idx, a⟩ := pa
    intro st accs hsub
    have hamem : a ∈ actions := hsub (idx, a) (List.mem_cons_self _ _)
    have haOK := actionOk_elim (hact a hamem)
    have hsub' : ∀ p ∈ rest, p.2 ∈ actions :=
      fun p hp => hsub p (List.mem_cons_of_mem _ hp)
    have hdlt : ∀ j ∈ a.deps, j < nodes.length :=
      fun j hj => isBranchIdx_lt (haOK.2 j hj)
    have hdfuel : wDeps (maxDepsLen nodes actions) a.deps <
        passFuel nodes actions :=
      passFuel_deps hdlt (maxDepsLen_action hamem)
    cases hp : a.parent with
    | none =>
      obtain ⟨S2, -, -, -⟩ := evalGo_spec hWFN hMn (passFuel nodes actions)
        (ETask.deps a.deps) st hdfuel
      cases he2 : (evalGo nodes e (passFuel nodes actions)
          (ETask.deps a.deps) st).err with
      | some m =>
        have hr : runActions nodes (passFuel nodes actions) e
            ((idx, a) :: rest) st accs =
            ((evalGo nodes e (passFuel nodes actions) (ETask.deps a.deps) st).st,
              accs,
              (evalGo nodes e (passFuel nodes actions) (ETask.deps a.deps) st).tr,
              some m) := by
          simp [runActions, hp, he2]
        rw [hr]
        exact S2
      | none =>
        cases hupd : a.upd (accs idx) e with
        | error m =>
          have hr : runActions nodes (passFuel nodes actions) e
              ((idx, a) :: rest) st accs =
              ((evalGo nodes e (passFuel nodes actions) (ETask.deps a.deps) st).st,
                accs,
                (evalGo nodes e (passFuel nodes actions) (ETask.deps a.deps) st).tr,
                some m) := by
            simp [runActions, hp, he2, hupd]
          rw [hr]
          exact S2
        | ok v =>
          have hrec := ih ((evalGo nodes e (passFuel nodes actions)
              (ETask.deps a.deps) st).st)
            (fun k => if k = idx then v else accs k) hsub'
          have hr : runActions nodes (passFuel nodes actions) e
              ((idx, a) :: rest) st accs =
              ((runActions nodes (passFuel nodes actions) e rest
                  ((evalGo nodes e (passFuel nodes actions)
                    (ETask.deps a.deps) st).st)
                  (fun k => if k = idx then v else accs k)).1,
                (runActions nodes (passFuel nodes actions) e rest
                  ((evalGo nodes e (passFuel nodes actions)
                    (ETask.deps a.deps) st).st)
                  (fun k => if k = idx then v else accs k)).2.1,
                (evalGo nodes e (passFuel nodes actions)
                  (ETask.deps a.deps) st).tr ++
                  (runActions nodes (passFuel nodes actions) e rest
                    ((evalGo nodes e (passFuel nodes actions)
                      (ETask.deps a.deps) st).st)
                    (fun k => if k = idx then v else accs k)).2.2.1,
                (runActions nodes (passFuel nodes actions) e rest
                  ((evalGo nodes e (passFuel nodes actions)
                    (ETask.deps a.deps) st).st)
                  (fun k => if k = idx then v else accs k)).2.2.2) := by
            simp [runActions, hp, he2, hupd]
          rw [hr]
          exact step_comp S2 hrec
    | some j =>
      have hjf : isFilterIdx nodes j = true := haOK.1 j hp
      have hjfuel : wNode (maxDepsLen nodes actions) j <
          passFuel nodes actions := passFuel_node (isFilterIdx_lt hjf)
      obtain ⟨S1, -, -, -⟩ := evalGo_spec hWFN hMn (passFuel nodes actions)
        (ETask.node j) st hjfuel
      cases he1 : (evalGo nodes e (passFuel nodes actions)
          (ETask.node j) st).err with
      | some m =>
        have hr : runActions nodes (passFuel nodes actions) e
            ((idx, a) :: rest) st accs =
            ((evalGo nodes e (passFuel nodes actions) (ETask.node j) st).st,
              accs,
              (evalGo nodes e (passFuel nodes actions) (ETask.node j) st).tr,
              some m) := by
          simp [runActions, hp, he1]
        rw [hr]
        exact S1
      | none =>
        cases hres : ((evalGo nodes e (passFuel nodes actions)
            (ETask.node j) st).st j).lastResult with
        | false =>
          have hrec := ih ((evalGo nodes e (passFuel nodes actions)
              (ETask.node j) st).st) accs hsub'
          have hr : runActions nodes (passFuel nodes actions) e
              ((idx, a) :: rest) st accs =
              ((runActions nodes (passFuel nodes actions) e rest
                  ((evalGo nodes e (passFuel nodes actions)
                    (ETask.node j) st).st) accs).1,
                (runActions nodes (passFuel nodes actions) e rest
                  ((evalGo nodes e (passFuel nodes actions)
                    (ETask.node j) st).st) accs).2.1,
                (evalGo nodes e (passFuel nodes actions)
                  (ETask.node j) st).tr ++
                  (runActions nodes (passFuel nodes actions) e rest
                    ((evalGo nodes e (passFuel nodes actions)
                      (ETask.node j) st).st) accs).2.2.1,
                (runActions nodes (passFuel nodes actions) e rest
                  ((evalGo nodes e (passFuel nodes actions)
                    (ETask.node j) st).st) accs).2.2.2) := by
            simp [runActions, hp, he1, hres]
          rw [hr]
          exact step_comp S1 hrec
        | true =>
          obtain ⟨S2, -, -, -⟩ := evalGo_spec hWFN hMn (passFuel nodes actions)
            (ETask.deps a.deps)
            ((evalGo nodes e (passFuel nodes actions) (ETask.node j) st).st)
            hdfuel
          cases he2 : (evalGo nodes e (passFuel nodes actions)
              (ETask.deps a.deps)
              ((evalGo nodes e (passFuel nodes actions)
                (ETask.node j) st).st)).err with
          | some m =>
            have hr : runActions nodes (passFuel nodes actions) e
                ((idx, a) :: rest) st accs =
                ((evalGo nodes e (passFuel nodes actions) (ETask.deps a.deps)
                    ((evalGo nodes e (passFuel nodes actions)
                      (ETask.node j) st).st)).st,
                  accs,
                  (evalGo nodes e (passFuel nodes actions)
                    (ETask.node j) st).tr ++
                    (evalGo nodes e (passFuel nodes actions) (ETask.deps a.deps)
                      ((evalGo nodes e (passFuel nodes actions)
                        (ETask.node j) st).st)).tr,
                  some m) := by
              simp [runActions, hp, he1, hres, he2]
            rw [hr]
            exact step_comp S1 S2
          | none =>
            cases hupd : a.upd (accs idx) e with
            | error m =>
              have hr : runActions nodes (passFuel nodes actions) e
                  ((idx, a) :: rest) st accs =
                  ((evalGo nodes e (passFuel nodes actions) (ETask.deps a.deps)
                      ((evalGo nodes e (passFuel nodes actions)
                        (ETask.node j) st).st)).st,
                    accs,
                    (evalGo nodes e (passFuel nodes actions)
                      (ETask.node j) st).tr ++
                      (evalGo nodes e (passFuel nodes actions)
                        (ETask.deps a.deps)
                        ((evalGo nodes e (passFuel nodes actions)
                          (ETask.node j) st).st)).tr,
                    some m) := by
                simp [runActions, hp, he1, hres, he2, hupd]
              rw [hr]
              exact step_comp S1 S2
            | ok v =>
              have hrec := ih ((evalGo nodes e (passFuel nodes actions)
                  (ETask.deps a.deps)
                  ((evalGo nodes e (passFuel nodes actions)
                    (ETask.node j) st).st)).st)
                (fun k => if k = idx then v else accs k) hsub'
              have hstep := step_comp (step_comp S1 S2) hrec
              rw [List.append_assoc] at hstep
              have hr : runActions nodes (passFuel nodes actions) e
                  ((idx, a) :: rest) st accs =
                  ((runActions nodes (passFuel nodes actions) e rest
                      ((evalGo nodes e (passFuel nodes actions)
                        (ETask.deps a.deps)
                        ((evalGo nodes e (passFuel nodes actions)
                          (ETask.node j) st).st)).st)
                      (fun k => if k = idx then v else accs k)).1,
                    (runActions nodes (passFuel nodes actions) e rest
                      ((evalGo nodes e (passFuel nodes actions)
                        (ETask.deps a.deps)
                        ((evalGo nodes e (passFuel nodes actions)
                          (ETask.node j) st).st)).st)
                      (fun k => if k = idx then v else accs k)).2.1,
                    (evalGo nodes e (passFuel nodes actions)
                      (ETask.node j) st).tr ++
                      ((evalGo nodes e (passFuel nodes actions)
                        (ETask.deps a.deps)
                        ((evalGo nodes e (passFuel nodes actions)
                          (ETask.node j) st).st)).tr ++
                        (runActions nodes (passFuel nodes actions) e rest
                          ((evalGo nodes e (passFuel nodes actions)
                            (ETask.deps a.deps)
                            ((evalGo nodes e (passFuel nodes actions)
                              (ETask.node j) st).st)).st)
                          (fun k => if k = idx then v else accs k)).2.2.1),
                    (runActions nodes (passFuel nodes actions) e rest
                      ((evalGo nodes e (passFuel nodes actions)
                        (ETask.deps a.deps)
                        ((evalGo nodes e (passFuel nodes actions)
                          (ETask.node j) st).st)).st)
                      (fun k => if k = idx then v else accs k)).2.2.2) := by
                simp [runActions, hp, he1, hres, he2, hupd]
              rw [hr]
              exact hstep

theorem runNamed_step {nodes : List Node} {actions : List ActionNode}
    (hWFN : WFNodes nodes) (e : Nat) :
    ∀ (names : List Nat) (st : Nat → NodeState),
      (∀ i ∈ names, isNamedIdx nodes i = true) →
      Step nodes e st
        (runNamed nodes (passFuel nodes actions) e names st).1
        (runNamed nodes (passFuel nodes actions) e names st).2.1 ∧
      ((runNamed nodes (passFuel nodes actions) e names st).2.2 = none →
        ∀ i ∈ names,
          ((runNamed nodes (passFuel nodes actions) e names st).1 i).lastChecked
            = (e : Int)) := by
  have hMn : ∀ nd ∈ nodes, nd.deps.length ≤ maxDepsLen nodes actions :=
    fun nd hnd => maxDepsLen_node hnd
  intro names
  induction names with
  | nil =>
    intro st hnm
    refine ⟨step_refl nodes e st, ?_⟩
    intro _ i hi
    exact absurd hi (List.not_mem_nil i)
  | cons i rest ih =>
    intro st hnm
    have hni : isNamedIdx nodes i = true := hnm i (List.mem_cons_self _ _)
    have hfi : isFilterIdx nodes i = true := isNamedIdx_isFilterIdx hni
    have hfuel : wNode (maxDepsLen nodes actions) i <
        passFuel nodes actions := passFuel_node (isFilterIdx_lt hfi)
    obtain ⟨S1, -, -, P8⟩ := evalGo_spec hWFN hMn (passFuel nodes actions)
      (ETask.node i) st hfuel
    obtain ⟨nd, pred, nm, hn, -, -⟩ := isNamedIdx_elim hni
    cases he : (evalGo nodes e (passFuel nodes actions)
        (ETask.node i) st).err with
    | some m =>
      have hr : runNamed nodes (passFuel nodes actions) e (i :: rest) st =
          ((evalGo nodes e (passFuel nodes actions) (ETask.node i) st).st,
            (evalGo nodes e (passFuel nodes actions) (ETask.node i) st).tr,
            some m) := by
        simp [runNamed, he]
      rw [hr]
      exact ⟨S1, fun hc => absurd hc (Option.noConfusion)⟩
    | none =>
      have hrest : ∀ j ∈ rest, isNamedIdx nodes j = true :=
        fun j hj => hnm j (List.mem_cons_of_mem _ hj)
      obtain ⟨Srec, Crec⟩ := ih
        ((evalGo nodes e (passFuel nodes actions) (ETask.node i) st).st) hrest
      have hr : runNamed nodes (passFuel nodes actions) e (i :: rest) st =
          ((runNamed nodes (passFuel nodes actions) e rest
              ((evalGo nodes e (passFuel nodes actions)
                (ETask.node i) st).st)).1,
            (evalGo nodes e (passFuel nodes actions) (ETask.node i) st).tr ++
              (runNamed nodes (passFuel nodes actions) e rest
                ((evalGo nodes e (passFuel nodes actions)
                  (ETask.node i) st).st)).2.1,
            (runNamed nodes (passFuel nodes actions) e rest
              ((evalGo nodes e (passFuel nodes actions)
                (ETask.node i) st).st)).2.2) := by
        simp [runNamed, he]
      rw [hr]
      refine ⟨step_comp S1 Srec, ?_⟩
      intro hcomp j hj
      rcases List.mem_cons.mp hj with hji | hjr
      · subst hji
        have hlc : ((evalGo nodes e (passFuel nodes actions)
            (ETask.node j) st).st j).lastChecked = (e : Int) :=
          P8 j nd rfl hn he
        have := Srec.untouched j hlc
        rw [this, hlc]
      · exact Crec hcomp j hjr

theorem processEntry_spec {nodes : List Node} {actions : List ActionNode}
    {named : List Nat} (hWFN : WFNodes nodes)
    (hact : ∀ a ∈ actions, actionOk nodes a = true)
    (hnm : ∀ i ∈ named, isNamedIdx nodes i = true)
    (e : Nat) (p : PassSt) :
    ∃ tnew, (processEntry nodes actions named e p).tr = p.tr ++ tnew ∧
      Step nodes e p.st (processEntry nodes actions named e p).st tnew ∧
      ((processEntry nodes actions named e p).err = none →
        ∀ i ∈ named,
          ((processEntry nodes actions named e p).st i).lastChecked
            = (e : Int)) := by
  have hsub : ∀ q ∈ actions.enum, q.2 ∈ actions := by
    intro q hq
    have h1 : q.2 ∈ actions.enum.map Prod.snd := List.mem_map_of_mem _ hq
    rwa [List.enum_map_snd] at h1
  have SA := runActions_step hWFN hact e actions.enum p.st p.accs hsub
  cases hra : (runActions nodes (passFuel nodes actions) e actions.enum
      p.st p.accs).2.2.2 with
  | some m =>
    have hr : processEntry nodes actions named e p =
        ⟨(runActions nodes (passFuel nodes actions) e actions.enum
            p.st p.accs).1,
          (runActions nodes (passFuel nodes actions) e actions.enum
            p.st p.accs).2.1,
          p.tr ++ (runActions nodes (passFuel nodes actions) e actions.enum
            p.st p.accs).2.2.1,
          some m⟩ := by
      simp [processEntry, hra]
    refine ⟨(runActions nodes (passFuel nodes actions) e actions.enum
        p.st p.accs).2.2.1, ?_, ?_, ?_⟩
    · rw [hr]
    · rw [hr]
      exact SA
    · rw [hr]
      intro hc
      exact absurd hc (Option.noConfusion)
  | none =>
    obtain ⟨SN, CN⟩ := @runNamed_step nodes actions hWFN e named
      ((runActions nodes (passFuel nodes actions) e actions.enum
        p.st p.accs).1) hnm
    have hr : processEntry nodes actions named e p =
        ⟨(runNamed nodes (passFuel nodes actions) e named
            (runActions nodes (passFuel nodes actions) e actions.enum
              p.st p.accs).1).1,
          (runActions nodes (passFuel nodes actions) e actions.enum
            p.st p.accs).2.1,
          p.tr ++ (runActions nodes (passFuel nodes actions) e actions.enum
            p.st p.accs).2.2.1 ++
            (runNamed nodes (passFuel nodes actions) e named
              (runActions nodes (passFuel nodes actions) e actions.enum
                p.st p.accs).1).2.1,
          (runNamed nodes (passFuel nodes actions) e named
            (runActions nodes (passFuel nodes actions) e actions.enum
              p.st p.accs).1).2.2⟩ := by
      simp [processEntry, hra]
    refine ⟨(runActions nodes (passFuel nodes actions) e actions.enum
        p.st p.accs).2.2.1 ++
        (runNamed nodes (passFuel nodes actions) e named
          (runActions nodes (passFuel nodes actions) e actions.enum
            p.st p.accs).1).2.1, ?_, ?_, ?_⟩
    · rw [hr, List.append_assoc]
    · rw [hr]
      exact step_comp SA SN
    · rw [hr]
      intro hc i hi
      exact CN hc i hi

theorem processEntry_tally {nodes : List Node} {actions : List ActionNode}
    {named : List Nat} (hWFN : WFNodes nodes)
    (hact : ∀ a ∈ actions, actionOk nodes a = true)
    (hnm : ∀ i ∈ named, isNamedIdx nodes i = true)
    {e : Nat} {p : PassSt} {i : Nat} (hi : i ∈ named)
    (hpre : ∀ k, (p.st k).lastChecked < (e : Int))
    (herr : (processEntry nodes actions named e p).err = none) :
    accRej ((processEntry nodes actions named e p).st i) =
      accRej (p.st i) +
        (if chainPass nodes i e = true then 1 else 0) := by
  obtain ⟨tnew, -, S, hcomp⟩ := processEntry_spec hWFN hact hnm e p
  have hcons : ConsSt nodes e p.st := by
    intro k _ hlc
    exact absurd hlc (ne_of_lt (hpre k))
  have hnmi : isNamedIdx nodes i = true := hnm i hi
  have hiff : (i, e) ∈ tnew ↔ chainPass nodes i e = true := by
    constructor
    · intro hmem
      exact chainPass_iff.mpr
        (S.chainAcc hcons (i, e) hmem (isNamedIdx_isFilterIdx hnmi))
    · intro hcp
      have hpr : parentRes nodes i e = Except.ok true := chainPass_iff.mp hcp
      have hlc : ((processEntry nodes actions named e p).st i).lastChecked
          = (e : Int) := hcomp herr i hi
      have hne : (p.st i).lastChecked ≠ (e : Int) := ne_of_lt (hpre i)
      rcases S.became hcons i hlc hne with hmem | hfalse
      · exact hmem
      · rw [hpr] at hfalse
        have : (true : Bool) = false := by
          exact Except.ok.inj hfalse
        exact absurd this (by simp)
  have ht := S.tally i
  by_cases hcp : chainPass nodes i e = true
  · rw [if_pos hcp]
    rw [ht, if_pos ⟨hiff.mpr hcp, hnmi⟩]
  · rw [if_neg hcp, ht]
    have hnotmem : ¬((i, e) ∈ tnew ∧ isNamedIdx nodes i = true) := by
      intro hand
      exact hcp (hiff.mp hand.1)
    rw [if_neg hnotmem]

theorem runLoop_err {nodes : List Node} {actions : List ActionNode}
    {named : List Nat} :
    ∀ (rows : List Nat) (p : PassSt) (m : String), p.err = some m →
      runLoop nodes actions named rows p = p := by
  intro rows
  cases rows with
  | nil =>
    intro p m h
    rfl
  | cons e rest =>
    intro p m h
    simp [runLoop, h]

theorem runLoop_once {nodes : List Node} {actions : List ActionNode}
    {named : List Nat} (hWFN : WFNodes nodes)
    (hact : ∀ a ∈ actions, actionOk nodes a = true)
    (hnm : ∀ i ∈ named, isNamedIdx nodes i = true) :
    ∀ (rows : List Nat) (p : PassSt), rows.Nodup →
      ∃ t2, (runLoop nodes actions named rows p).tr = p.tr ++ t2 ∧
        (∀ x ∈ t2, x.2 ∈ rows) ∧
        (∀ k r, t2.count (k, r) ≤ 1) := by
  intro rows
  induction rows with
  | nil =>
    intro p _
    exact ⟨[], by simp [runLoop], by simp, by simp⟩
  | cons e rest ih =>
    intro p hnd
    cases hp : p.err with
    | some m =>
      refine ⟨[], ?_, by simp, by simp⟩
      rw [runLoop_err (e :: rest) p m hp]
      simp
    | none =>
      obtain ⟨tnew, htr, S, -⟩ := processEntry_spec hWFN hact hnm e p
      obtain ⟨t3, htr3, hmem3, hcnt3⟩ :=
        ih (processEntry nodes actions named e p) (List.nodup_cons.mp hnd).2
      have hloop : runLoop nodes actions named (e :: rest) p =
          runLoop nodes actions named rest
            (processEntry nodes actions named e p) := by
        simp [runLoop, hp]
      refine ⟨tnew ++ t3, ?_, ?_, ?_⟩
      · rw [hloop, htr3, htr, List.append_assoc]
      · intro x hx
        rcases List.mem_append.mp hx with h1 | h2
        · have h2e := (S.trace x h1).1
          rw [h2e]
          exact List.mem_cons_self _ _
        · exact List.mem_cons_of_mem _ (hmem3 x h2)
      · intro k r
        rw [hloop] at *
        rw [List.count_append]
        by_cases hre : r = e
        · subst hre
          have h1 : tnew.count (k, r) ≤ 1 := S.once k
          have h2 : t3.count (k, r) = 0 := by
            rw [List.count_eq_zero]
            intro hmem
            exact (List.nodup_cons.mp hnd).1 (hmem3 _ hmem)
          omega
        · have h1 : tnew.count (k, r) = 0 := by
            rw [List.count_eq_zero]
            intro hmem
            exact hre ((S.trace _ hmem).1)
          have h2 : t3.count (k, r) ≤ 1 := hcnt3 k r
          omega

theorem runLoop_tally {nodes : List Node} {actions : List ActionNode}
    {named : List Nat} (hWFN : WFNodes nodes)
    (hact : ∀ a ∈ actions, actionOk nodes a = true)
    (hnm : ∀ i ∈ named, isNamedIdx nodes i = true)
    {i : Nat} (hi : i ∈ named) :
    ∀ (rows : List Nat) (p : PassSt),
      List.Pairwise (fun a b => a < b) rows →
      (∀ e ∈ rows, ∀ k, (p.st k).lastChecked < (e : Int)) →
      p.err = none →
      (runLoop nodes actions named rows p).err = none →
      accRej ((runLoop nodes actions named rows p).st i) =
        accRej (p.st i) +
          rows.countP (fun r => chainPass nodes i r) := by
  intro rows
  induction rows with
  | nil =>
    intro p _ _ _ _
    simp [runLoop]
  | cons e rest ih =>
    intro p hsort hpre hperr herr2
    have hloop : runLoop nodes actions named (e :: rest) p =
        runLoop nodes actions named rest
          (processEntry nodes actions named e p) := by
      simp [runLoop, hperr]
    rw [hloop] at herr2
    cases hq : (processEntry nodes actions named e p).err with
    | some m =>
      rw [runLoop_err rest _ m hq, hq] at herr2
      exact absurd herr2 (Option.noConfusion)
    | none =>
      obtain ⟨tnew, -, S, -⟩ := processEntry_spec hWFN hact hnm e p
      have hpree : ∀ k, (p.st k).lastChecked < (e : Int) :=
        fun k => hpre e (List.mem_cons_self _ _) k
      have htal := processEntry_tally hWFN hact hnm hi hpree hq
      have hprer : ∀ e' ∈ rest, ∀ k,
          ((processEntry nodes actions named e p).st k).lastChecked
            < (e' : Int) := by
        intro e' he' k
        have hee' : e < e' := (List.pairwise_cons.mp hsort).1 e' he'
        have hee'i : (e : Int) < (e' : Int) := by exact_mod_cast hee'
        rcases S.evolve k with hev | hev
        · rw [hev]
          exact lt_trans (hpree k) hee'i
        · rw [hev]
          exact hee'i
      have hrec := ih (processEntry nodes actions named e p)
        (List.pairwise_cons.mp hsort).2 hprer hq herr2
      rw [hloop, hrec, htal, List.countP_cons]
      by_cases hcp : chainPass nodes i e = true
      · simp only [hcp, if_true, if_pos]
        omega
      · have hcf : chainPass nodes i e = false := by
          cases hb : chainPass nodes i e with
          | false => rfl
          | true => exact absurd hb hcp
        simp only [hcf, if_neg hcp]
        simp

/-- C2: within one pass, for every slot (one `runSlot` share over that
slot's entries) and every row, each filter node and each temporary-branch
node of a well-formed pipeline evaluates its user callable at most once --
the slot's evaluation trace contains the pair `(node, row)` at most once,
however many downstream consumers request the node's result; and a
repeated request at the same entry is served from the node's per-slot
cache: a node whose slot cache already records the current entry returns
the state unchanged, with no callable evaluation and no failure. -/
theorem node_eval_at_most_once
    (nodes : List Node) (actions : List ActionNode) (named : List Nat)
    (rows : List Nat) (hWF : WFFrame nodes actions named = true)
    (hnd : rows.Nodup) :
    (∀ k r, (runSlot nodes actions named rows).tr.count (k, r) ≤ 1) ∧
    (∀ (i r fuel : Nat) (st : Nat → NodeState),
      (st i).lastChecked = (r : Int) →
      evalGo nodes r (fuel + 1) (ETask.node i) st = ⟨st, [], none⟩) := by
  obtain ⟨hWFN, hact, hnm⟩ := WFFrame_elim hWF
  constructor
  · obtain ⟨t2, htr, -, hcnt⟩ := runLoop_once hWFN hact hnm rows freshPass hnd
    intro k r
    have htr2 : (runSlot nodes actions named rows).tr = t2 := by
      unfold runSlot
      rw [htr]
      simp [freshPass]
    rw [htr2]
    exact hcnt k r
  · intro i r fuel st h
    cases hn : nodes[i]? with
    | none => simp [evalGo, hn]
    | some nd => simp [evalGo, hn, h]

/-- C2, witness: scenario S3's graph over its three rows.  The filter
`gt1` is consulted by the downstream filter `lt3`, by the count action's
chain and by the named-filter sweep, yet the trace holds one evaluation of
node 0 per row (and evaluations of node 1 only where `gt1` accepted),
each pair at most once. -/
theorem node_eval_at_most_once_witness :
    (runSlot dfS3.nodes dfS3.actions dfS3.namedFilters [0, 1, 2]).tr =
      [(0, 0), (0, 1), (1, 1), (0, 2), (1, 2)] ∧
    (∀ k r, (runSlot dfS3.nodes dfS3.actions dfS3.namedFilters
      [0, 1, 2]).tr.count (k, r) ≤ 1) :=
  ⟨by decide,
    (node_eval_at_most_once dfS3.nodes dfS3.actions dfS3.namedFilters
      [0, 1, 2] (by decide) (by decide)).1⟩

/-- C4: for a well-formed pipeline run over a partition of the entries
into per-slot shares, the sum over the slots of a named filter's accepted
plus rejected tallies equals the number of rows whose every ancestor
filter accepted; in particular, in scenario S3 the count action yields 1
and the report lines read `gt1` with pass 2 of 3 followed by `lt3` with
pass 1 of 2. -/
theorem named_filter_tally
    (nodes : List Node) (actions : List ActionNode) (named : List Nat)
    (nRows : Nat) (parts : List (List Nat)) (i : Nat)
    (hWF : WFFrame nodes actions named = true) (hi : i ∈ named)
    (hsort : ∀ rows ∈ parts, List.Pairwise (fun a b => a < b) rows)
    (hok : ∀ rows ∈ parts, (runSlot nodes actions named rows).err = none)
    (hperm : parts.flatten.Perm (List.range nRows)) :
    ((parts.map fun rows =>
        accRej ((runSlot nodes actions named rows).st i)).sum =
      (List.range nRows).countP fun r => chainPass nodes i r) ∧
    (Run dfS3).2 = none ∧
    (Run dfS3).1.accs 0 = 1 ∧
    (Report (Run dfS3).1).map (fun l => (l.nm, l.pass, l.all)) =
      [("gt1", 2, 3), ("lt3", 1, 2)] := by
  obtain ⟨hWFN, hact, hnm⟩ := WFFrame_elim hWF
  refine ⟨?_, by decide, by decide, by decide⟩
  have hslot : ∀ rows ∈ parts,
      accRej ((runSlot nodes actions named rows).st i) =
        rows.countP (fun r => chainPass nodes i r) := by
    intro rows hrows
    have hpre : ∀ e ∈ rows, ∀ k,
        (freshPass.st k).lastChecked < (e : Int) := by
      intro e _ k
      have h0 : (0 : Int) ≤ (e : Int) := Int.ofNat_nonneg e
      have hlc : (freshPass.st k).lastChecked = -1 := rfl
      rw [hlc]
      omega
    have h := runLoop_tally hWFN hact hnm hi rows freshPass
      (hsort rows hrows) hpre rfl (hok rows hrows)
    calc accRej ((runSlot nodes actions named rows).st i)
        = accRej (freshPass.st i) +
            rows.countP (fun r => chainPass nodes i r) := h
      _ = rows.countP (fun r => chainPass nodes i r) := by
          simp [freshPass, initNodeState, accRej]
  calc (parts.map fun rows =>
        accRej ((runSlot nodes actions named rows).st i)).sum
      = (parts.map fun rows =>
          rows.countP (fun r => chainPass nodes i r)).sum := by
        apply congrArg List.sum
        exact List.map_congr_left hslot
    _ = (parts.flatten).countP (fun r => chainPass nodes i r) :=
        (List.countP_flatten _ _).symm
    _ = (List.range nRows).countP (fun r => chainPass nodes i r) :=
        hperm.countP_eq _

/-- C4, witness: scenario S3 split over two slots as the shares `[0, 1]`
and `[2]`; the tallies of the named filter `lt3` (node 1) sum to the
number of rows `gt1` accepted, and the concrete count and report of the
single-slot pass come out as the claim states. -/
theorem named_filter_tally_witness :
    (([[0, 1], [2]].map fun rows =>
        accRej ((runSlot dfS3.nodes dfS3.actions dfS3.namedFilters
          rows).st 1)).sum =
      (List.range 3).countP fun r => chainPass dfS3.nodes 1 r) ∧
    (Run dfS3).2 = none ∧
    (Run dfS3).1.accs 0 = 1 ∧
    (Report (Run dfS3).1).map (fun l => (l.nm, l.pass, l.all)) =
      [("gt1", 2, 3), ("lt3", 1, 2)] := by
  have H := named_filter_tally dfS3.nodes dfS3.actions dfS3.namedFilters 3
    [[0, 1], [2]] 1 (by decide) (by decide) (by decide) (by decide)
    (by decide)
  exact ⟨H.1, H.2.1, H.2.2.1, H.2.2.2⟩

/-- C10, witness: booking an unnamed filter on the S3 root leaves the
named-filter list and the report unchanged; booking it under a name would
append it. -/
theorem unnamed_filter_not_reported_witness :
    HasName "" = false ∧
    (bookFilter dfS3 (fun _ => Except.ok true) "" none []).namedFilters =
      dfS3.namedFilters ∧
    Report (bookFilter dfS3 (fun _ => Except.ok true) "" none []) =
      Report dfS3 ∧
    (bookFilter dfS3 (fun _ => Except.ok true) "x" none []).namedFilters =
      dfS3.namedFilters ++ [2] := by
  have H := unnamed_filter_not_reported dfS3 (fun _ => Except.ok true) "x"
    none [] (by decide)
  exact ⟨H.1, H.2.2.1, H.2.2.2.1, H.2.2.2.2.1 (by decide)⟩

/-! ## C3: the content and order of the cutflow report -/

theorem slotAccepted_single (st : Nat → NodeState) (i : Nat) :
    slotAccepted [st] i = (st i).accepted := by
  simp [slotAccepted]

theorem slotRejected_single (st : Nat → NodeState) (i : Nat) :
    slotRejected [st] i = (st i).rejected := by
  simp [slotRejected]

/-- The printed line carries the filter's name, the accept count summed
over slots, the observed count (accepts plus rejects), and the percentage
`accept/observed * 100` when the observed count is positive and `0`
otherwise (the accept count is zero whenever the observed count is). -/
theorem printReport_formula (nodes : List Node)
    (sts : List (Nat → NodeState)) (i : Nat) :
    printReport nodes sts i =
      ⟨filterName nodes i, slotAccepted sts i,
        slotAccepted sts i + slotRejected sts i,
        if slotAccepted sts i + slotRejected sts i > 0 then
          (slotAccepted sts i : ℚ) /
            ((slotAccepted sts i : ℚ) + (slotRejected sts i : ℚ)) * 100
        else 0⟩ := by
  simp only [printReport]
  by_cases h : slotAccepted sts i + slotRejected sts i > 0
  · rw [if_pos h, if_pos h]
    congr 1
    push_cast
    rfl
  · rw [if_neg h, if_neg h]
    have hz : slotAccepted sts i = 0 := by omega
    rw [hz]
    simp

/-- C3: `report` on a root that has not yet run drives exactly one pass
(here assumed to succeed) and then prints, in filter booking order, one
line per named filter: the name, the accept count, the observed count
(accepts plus rejects) and the percentage `accept/observed * 100` when
the observed count is positive and `0` otherwise.  The final conjunct
states the line format for any number of slots, with the counts summed
over the slots. -/
theorem report_triggers_and_lines (df df₁ : TDataFrameImpl) (n : Nat)
    (err : Option String) (lines : List ReportLine)
    (hnot : df.hasRunAtLeastOnce = false)
    (hok : (Run df).2 = none)
    (hrep : report df = (df₁, n, err, lines)) :
    n = 1 ∧ err = none ∧ df₁ = (Run df).1 ∧
    df₁.namedFilters = df.namedFilters ∧
    lines = df₁.namedFilters.map (fun i =>
      ⟨filterName df₁.nodes i, (df₁.nodeSt i).accepted,
        (df₁.nodeSt i).accepted + (df₁.nodeSt i).rejected,
        if (df₁.nodeSt i).accepted + (df₁.nodeSt i).rejected > 0 then
          ((df₁.nodeSt i).accepted : ℚ) /
            (((df₁.nodeSt i).accepted : ℚ) + ((df₁.nodeSt i).rejected : ℚ))
            * 100
        else 0⟩) ∧
    (∀ (nodes : List Node) (sts : List (Nat → NodeState)) (j : Nat),
      printReport nodes sts j =
        ⟨filterName nodes j, slotAccepted sts j,
          slotAccepted sts j + slotRejected sts j,
          if slotAccepted sts j + slotRejected sts j > 0 then
            (slotAccepted sts j : ℚ) /
              ((slotAccepted sts j : ℚ) + (slotRejected sts j : ℚ)) * 100
          else 0⟩) := by
  have hpair : Run df = ((Run df).1, none) := Prod.ext rfl hok
  have hfin : finishRun df (runLoop df.nodes df.actions df.namedFilters
      (List.range df.nRows) ⟨createSlots df.nodeSt, df.accs, [], none⟩) =
      ((Run df).1, none) := hpair
  obtain ⟨-, hdf⟩ := finishRun_ok hfin
  unfold report at hrep
  rw [hnot, hok] at hrep
  simp only [Bool.false_eq_true, if_false, Prod.mk.injEq] at hrep
  obtain ⟨h1, h2, h3, h4⟩ := hrep
  subst h1
  subst h2
  subst h3
  subst h4
  have hnf : (Run df).1.namedFilters = df.namedFilters := by rw [hdf]
  refine ⟨rfl, rfl, rfl, hnf, ?_, fun nodes sts j => printReport_formula nodes sts j⟩
  unfold Report
  refine List.map_congr_left fun i _ => ?_
  rw [printReport_formula, slotAccepted_single, slotRejected_single]

/-- C3, witness: scenario S3 -- report on the unrun S3 root drives one
pass and prints `gt1 : pass 2, all 3, 200/3 %` then `lt3 : pass 1, all 2,
50 %`, in booking order. -/
theorem report_triggers_and_lines_witness :
    (report dfS3).2.1 = 1 ∧ (report dfS3).2.2.1 = none ∧
    (report dfS3).2.2.2 =
      [⟨"gt1", 2, 3, 200 / 3⟩, ⟨"lt3", 1, 2, 50⟩] := by
  have H := report_triggers_and_lines dfS3 (report dfS3).1 (report dfS3).2.1
    (report dfS3).2.2.1 (report dfS3).2.2.2 rfl rfl rfl
  refine ⟨H.1, H.2.1, ?_⟩
  rw [H.2.2.2.2.1]
  have hnf : (report dfS3).1.namedFilters = [0, 1] := by decide
  have h0n : filterName (report dfS3).1.nodes 0 = "gt1" := by decide
  have h1n : filterName (report dfS3).1.nodes 1 = "lt3" := by decide
  have h0a : ((report dfS3).1.nodeSt 0).accepted = 2 := by decide
  have h0r : ((report dfS3).1.nodeSt 0).rejected = 1 := by decide
  have h1a : ((report dfS3).1.nodeSt 1).accepted = 1 := by decide
  have h1r : ((report dfS3).1.nodeSt 1).rejected = 1 := by decide
  rw [hnf]
  simp only [List.map_cons, List.map_nil, h0n, h1n, h0a, h0r, h1a, h1r]
  norm_num

end TDF
